import Mathlib

/-!
Shallow embedding of the canvas document engine of
`backend/app/services/workspace_service.py` together with the element model of
`backend/app/models/elements.py`.

Modelling conventions:
* The Python element classes are a tagged union; we use one record `Elem`
  carrying the union of the fields the claims mention, with `element_type`
  as the variant tag (exactly the discriminator the code branches on).
* Coordinates are Python floats in the source; all values the claims exercise
  are small integers on which float arithmetic is exact, so we use `Int`.
* `self.elements` is a Python dict keyed by `element.id`, iterated in
  insertion order; we model it as an insertion-ordered list of elements with
  the id as the key (`storePut` mirrors `d[k] = v`, `storeDel` mirrors
  `del d[k]`, `findElem` mirrors `d.get(k)`).
* Python `sorted` is a stable sort; `sortByZ`/`sortByPres` are stable
  insertion sorts.
* Ids are produced by `uuid4` in the source; callers of the model pass the
  generated id explicitly, and theorems that rely on uuid freshness state it
  as a hypothesis.
* Recursive/looping code that diverges on cyclic `parentId` chains
  (`_get_absolute_coords`, the delete BFS) is given a fuel parameter;
  a `none` result means the computation did not finish within the fuel.
* Python truthiness tests on `parentId` / id strings (`if element.parentId:`)
  are modelled by `truthy` (empty string and `None` are falsy).
-/

namespace Parsec

/-- Model of the element record: the common `Element` fields plus the
variant-specific fields the claims mention (`content` for text,
`presentationOrder` for frames, `definition_id`/`properties` for
component instances). -/
structure Elem where
  id : String
  element_type : String
  x : Int := 0
  y : Int := 0
  width : Int := 100
  height : Int := 100
  zIndex : Int := 0
  parentId : Option String := none
  presentationOrder : Option Int := none
  content : String := ""
  definition_id : String := ""
  properties : List (String × String) := []
deriving DecidableEq, Repr

/-- Model of `ComponentProperty` (one schema entry). -/
structure ComponentProperty where
  prop_name : String
  target_element_id : String
  target_property : String
  prop_type : String := "text"
deriving DecidableEq, Repr

/-- Model of `ComponentDefinition`. -/
structure ComponentDefinition where
  id : String
  name : String
  template_elements : List Elem
  schema : List ComponentProperty
deriving DecidableEq, Repr

/-- Model of the mutable `WorkspaceService` state. -/
structure Workspace where
  elements : List Elem
  component_definitions : List ComponentDefinition
  nextZIndex : Int
  history : List (List Elem)
  historyIndex : Nat
deriving DecidableEq, Repr

/-- Python truthiness of an optional string (`None` and `""` are falsy). -/
def truthy : Option String → Bool
  | none => false
  | some s => s != ""

/-- Model of `self.elements.get(eid)`. -/
def findElem (els : List Elem) (eid : String) : Option Elem :=
  els.find? (fun e => e.id == eid)

/-- Model of `self.elements[e.id] = e`: replace in place or append. -/
def storePut (els : List Elem) (e : Elem) : List Elem :=
  if (els.find? (fun x => x.id == e.id)).isSome then
    els.map (fun x => if x.id == e.id then e else x)
  else els ++ [e]

/-- Model of `self.component_definitions.get(did)`. -/
def findDef (defs : List ComponentDefinition) (did : String) : Option ComponentDefinition :=
  defs.find? (fun d => d.id == did)

/-- Model of `self.component_definitions[d.id] = d`. -/
def defPut (defs : List ComponentDefinition) (d : ComponentDefinition) : List ComponentDefinition :=
  if (defs.find? (fun x => x.id == d.id)).isSome then
    defs.map (fun x => if x.id == d.id then d else x)
  else defs ++ [d]

/-- Model of `del self.component_definitions[did]`. -/
def defDel (defs : List ComponentDefinition) (did : String) : List ComponentDefinition :=
  defs.filter (fun d => d.id != did)

/-- Model of `__init__`: empty store, `_next_z_index = 1`, and the initial
commit that leaves `history = [{}]`, `history_index = 0`. -/
def initWorkspace : Workspace :=
  { elements := [], component_definitions := [], nextZIndex := 1,
    history := [[]], historyIndex := 0 }

/-- Model of `_commit_history`: truncate the redo tail, append a snapshot of
the current elements, advance the cursor. (`take (i+1)` is the truncation;
when the cursor is already at the end it keeps the whole list, exactly as the
`if self.history_index < len(self.history) - 1` guard does.) -/
def commitHistory (ws : Workspace) : Workspace :=
  { ws with history := ws.history.take (ws.historyIndex + 1) ++ [ws.elements],
            historyIndex := ws.historyIndex + 1 }

/-- Model of list indexing `l[i]` with a default (indices in range wherever
the source indexes). -/
def nthD (l : List (List Elem)) (i : Nat) : List Elem :=
  match l, i with
  | [], _ => []
  | x :: _, 0 => x
  | _ :: xs, i + 1 => nthD xs i

/-- The last entry of `d :: l` (used to describe the final post-state of a
run of committing operations). -/
def lastD (d : List Elem) : List (List Elem) → List Elem
  | [] => d
  | x :: xs => lastD x xs

/-- Model of `undo`: step the cursor back and restore that snapshot;
`none` at the boundary. -/
def undo (ws : Workspace) : Option Workspace :=
  if ws.historyIndex > 0 then
    some { ws with historyIndex := ws.historyIndex - 1,
                   elements := nthD ws.history (ws.historyIndex - 1) }
  else none

/-- Model of `redo`: step the cursor forward and restore that snapshot;
`none` at the boundary. -/
def redo (ws : Workspace) : Option Workspace :=
  if ws.historyIndex + 1 < ws.history.length then
    some { ws with historyIndex := ws.historyIndex + 1,
                   elements := nthD ws.history (ws.historyIndex + 1) }
  else none

/-- Input of `_create_element_internal`: the payload dict. `id` stands for the
uuid the model would generate (or the id supplied in the dict); `valid`
models whether the Pydantic constructor succeeds (the `try/except` around
`element_model(**payload)` catches any validation failure). -/
structure Payload where
  element_type : String
  id : String
  x : Int := 0
  y : Int := 0
  width : Int := 100
  height : Int := 100
  parentId : Option String := none
  presentationOrder : Option Int := none
  content : String := "Type something..."
  definition_id : String := ""
  properties : List (String × String) := []
  valid : Bool := true
deriving DecidableEq, Repr

/-- The keys of `model_map` in `_create_element_internal`; note `"group"` is
absent. -/
def modelMapHit (t : String) : Bool :=
  t == "shape" || t == "text" || t == "frame" || t == "image" ||
  t == "path" || t == "component_instance"

/-- The element the Pydantic constructor builds from a payload (before
`add_element` assigns the z-index). -/
def elemOfPayload (p : Payload) : Elem :=
  { id := p.id, element_type := p.element_type, x := p.x, y := p.y,
    width := p.width, height := p.height, zIndex := 0, parentId := p.parentId,
    presentationOrder := p.presentationOrder, content := p.content,
    definition_id := p.definition_id, properties := p.properties }

/-- Model of `add_element`: stamp the running z-index onto the element,
store it, bump the counter. Returns the stored (mutated) element. -/
def addElement (ws : Workspace) (e : Elem) : Workspace × Elem :=
  let e' := { e with zIndex := ws.nextZIndex }
  ({ ws with elements := storePut ws.elements e', nextZIndex := ws.nextZIndex + 1 }, e')

/-- Model of `_create_element_internal`: dispatch on the variant tag,
construct, add; unknown tag or failed construction yields `none` and leaves
the store untouched. -/
def createElementInternal (ws : Workspace) (p : Payload) : Workspace × Option Elem :=
  if modelMapHit p.element_type then
    if p.valid then
      let (ws', e') := addElement ws (elemOfPayload p)
      (ws', some e')
    else (ws, none)
  else (ws, none)

/-- Model of the public `create_element_from_payload` (commits on success). -/
def createElementFromPayload (ws : Workspace) (p : Payload) : Workspace × Option Elem :=
  match createElementInternal ws p with
  | (ws', some e) => (commitHistory ws', some e)
  | (ws', none) => (ws', none)

/-- Ids of the direct children of `pid` (the set comprehension in the delete
BFS). -/
def childIdsOf (els : List Elem) (pid : String) : List String :=
  (els.filter (fun e => e.parentId == some pid)).map (fun e => e.id)

/-- Model of `ids_to_delete.update(children_ids)`: add the ids not already
collected (Python set iteration order is unspecified; only membership is
observable downstream). -/
def insertNewIds (acc : List String) (cs : List String) : List String :=
  cs.foldl (fun a c => if a.contains c then a else a ++ [c]) acc

/-- The `while q:` BFS of `_delete_element_internal`, with fuel: each
iteration pops one queue entry and enqueues all its children (even ones
already collected, exactly as the source does). `none` means the loop did
not finish within the fuel. -/
def collectDescendants (els : List Elem) : Nat → List String → List String → Option (List String)
  | _, acc, [] => some acc
  | 0, _, _ :: _ => none
  | fuel + 1, acc, pid :: q =>
      let cs := childIdsOf els pid
      collectDescendants els fuel (insertNewIds acc cs) (q ++ cs)

/-- Model of `_delete_element_internal`: collect the descendant closure and
remove every collected id that is present. -/
def deleteElementInternal (fuel : Nat) (ws : Workspace) (eid : String) :
    Option (Workspace × List String) :=
  if (findElem ws.elements eid).isSome then
    match collectDescendants ws.elements fuel [eid] [eid] with
    | none => none
    | some ids =>
        let deletedIds := ids.filter (fun i => (findElem ws.elements i).isSome)
        some ({ ws with elements := ws.elements.filter (fun e => !(deletedIds.contains e.id)) },
              deletedIds)
  else some (ws, [])

/-- Model of the public `delete_element` (commits when anything was removed). -/
def deleteElement (fuel : Nat) (ws : Workspace) (eid : String) :
    Option (Workspace × List String) :=
  match deleteElementInternal fuel ws eid with
  | none => none
  | some (ws', ids) =>
      if ids.isEmpty then some (ws', ids) else some (commitHistory ws', ids)

/-- Model of `_get_absolute_coords`, with fuel standing for the recursion
budget: the source recurses unconditionally along `parentId` and diverges on
a cyclic chain, which the model reports as `none`. -/
def getAbsoluteCoords (els : List Elem) : Nat → Elem → Option (Int × Int)
  | 0, _ => none
  | fuel + 1, e =>
    match e.parentId with
    | some pid =>
        if pid != "" then
          match findElem els pid with
          | some parent =>
              (getAbsoluteCoords els fuel parent).map (fun p => (e.x + p.1, e.y + p.2))
          | none => some (e.x, e.y)
        else some (e.x, e.y)
    | none => some (e.x, e.y)

/-- The per-child mutation of `_group_elements_internal`
(`child.parentId = group.id; child.x -= group.x; child.y -= group.y`),
applied to the store entry of each listed child id in order. -/
def groupRewrite (g : Elem) (els : List Elem) (cids : List String) : List Elem :=
  cids.foldl
    (fun acc cid =>
      acc.map (fun e =>
        if e.id == cid then { e with parentId := some g.id, x := e.x - g.x, y := e.y - g.y }
        else e))
    els

/-- The group element `_group_elements_internal` builds for resolved
children `c :: cs` (union bounding box of stored coordinates, z-index
stamped by `add_element`). -/
def groupOf (gid : String) (c : Elem) (cs : List Elem) (z : Int) : Elem :=
  { id := gid, element_type := "group",
    x := cs.foldl (fun a e => min a e.x) c.x,
    y := cs.foldl (fun a e => min a e.y) c.y,
    width := cs.foldl (fun a e => max a (e.x + e.width)) (c.x + c.width) -
      cs.foldl (fun a e => min a e.x) c.x,
    height := cs.foldl (fun a e => max a (e.y + e.height)) (c.y + c.height) -
      cs.foldl (fun a e => min a e.y) c.y,
    zIndex := z }

/-- Model of `_group_elements_internal`: resolve the ids (dropping unknown
ones), take the union bounding box of the resolved elements' stored
coordinates, add a root Group there, and make each resolved child relative to
it. `gid` is the uuid generated for the group. -/
def groupElementsInternal (ws : Workspace) (ids : List String) (gid : String) :
    Workspace × Option Elem × List Elem :=
  let children := ids.filterMap (findElem ws.elements)
  match children with
  | [] => (ws, none, [])
  | c :: cs =>
      let minX := cs.foldl (fun a e => min a e.x) c.x
      let minY := cs.foldl (fun a e => min a e.y) c.y
      let maxX := cs.foldl (fun a e => max a (e.x + e.width)) (c.x + c.width)
      let maxY := cs.foldl (fun a e => max a (e.y + e.height)) (c.y + c.height)
      let g0 : Elem := { id := gid, element_type := "group", x := minX, y := minY,
                         width := maxX - minX, height := maxY - minY }
      let (ws1, g) := addElement ws g0
      let els2 := groupRewrite g ws1.elements (children.map (fun e => e.id))
      let ws2 := { ws1 with elements := els2 }
      (ws2, some g, (children.map (fun e => e.id)).filterMap (findElem els2))

/-- Model of the public `group_elements` (commits when a group was created,
returns `[group] + children`). -/
def groupElements (ws : Workspace) (ids : List String) (gid : String) :
    Workspace × List Elem :=
  match groupElementsInternal ws ids gid with
  | (ws', some g, children) => (commitHistory ws', g :: children)
  | (ws', none, _) => (ws', [])

/-- The final mutation of `_reparent_element_internal` once validation has
passed: rebase the child's stored coordinates, set the new parent, stamp a
fresh top z-index. -/
def finishReparent (ws : Workspace) (child : Elem) (cx cy px py : Int)
    (npid : Option String) : Workspace × List Elem :=
  let child' := { child with
    x := cx - px, y := cy - py, parentId := npid, zIndex := ws.nextZIndex }
  ({ ws with
     elements := ws.elements.map (fun e => if e.id == child.id then child' else e),
     nextZIndex := ws.nextZIndex + 1 },
   [child'])

/-- Model of `_reparent_element_internal`. The only validation in the source
is that a truthy new parent id resolves to a `group`/`frame`; there is no
cycle check. The outer `none` propagates divergence of the coordinate
resolution. -/
def reparentElementInternal (fuel : Nat) (ws : Workspace) (childId : String)
    (newParentId : Option String) : Option (Workspace × List Elem) :=
  match findElem ws.elements childId with
  | none => some (ws, [])
  | some child =>
      match getAbsoluteCoords ws.elements fuel child with
      | none => none
      | some (cx, cy) =>
          if truthy newParentId then
            match newParentId with
            | some pid =>
                match findElem ws.elements pid with
                | some np =>
                    if np.element_type == "group" || np.element_type == "frame" then
                      match getAbsoluteCoords ws.elements fuel np with
                      | none => none
                      | some (px, py) =>
                          some (finishReparent ws child cx cy px py newParentId)
                    else some (ws, [])
                | none => some (ws, [])
            | none => some (ws, [])
          else some (finishReparent ws child cx cy 0 0 newParentId)

/-- Model of the public `reparent_element` (commits when the child moved). -/
def reparentElement (fuel : Nat) (ws : Workspace) (childId : String)
    (npid : Option String) : Option (Workspace × List Elem) :=
  match reparentElementInternal fuel ws childId npid with
  | none => none
  | some (ws', affected) =>
      some (if affected.isEmpty then (ws', affected) else (commitHistory ws', affected))

/-- Stable insertion of an element into a z-sorted list: the element goes in
front of the first entry whose `zIndex` is not smaller, which reproduces the
relative order Python's stable `sorted` keeps for equal keys. -/
def insertByZ (e : Elem) : List Elem → List Elem
  | [] => [e]
  | x :: xs => if x.zIndex < e.zIndex then x :: insertByZ e xs else e :: x :: xs

/-- Model of `sorted(..., key=lambda el: el.zIndex)` (stable). -/
def sortByZ : List Elem → List Elem
  | [] => []
  | x :: xs => insertByZ x (sortByZ xs)

/-- Model of Python's `list.insert(i, a)`: the index is clamped to the list
length, so the element is always inserted. -/
def listInsertAt (a : Elem) : Nat → List Elem → List Elem
  | _, [] => [a]
  | 0, l => a :: l
  | i + 1, x :: xs => x :: listInsertAt a i xs

/-- Model of Python's `list.index(a)` (position of the first equal entry;
`none` models the `ValueError`). -/
def idxOf? (a : Elem) : List Elem → Option Nat
  | [] => none
  | x :: xs => if x == a then some 0 else (idxOf? a xs).map (· + 1)

/-- Model of Python's `list.pop(i)` (the remaining list). -/
def listEraseAt : List Elem → Nat → List Elem
  | [], _ => []
  | _ :: xs, 0 => xs
  | x :: xs, i + 1 => x :: listEraseAt xs i

/-- The renumbering loop `for i, element in enumerate(...): element.zIndex = base + i`. -/
def renumberFrom (base : Int) : List Elem → List Elem
  | [] => []
  | e :: rest => { e with zIndex := base } :: renumberFrom (base + 1) rest

/-- Write a batch of (z-index-)mutated elements back over the store: each
store entry whose id appears in the batch is replaced by the batch value
(the source mutates the shared objects in place; ids are unique store keys). -/
def applyZUpdates (upd : List Elem) : List Elem → List Elem
  | [] => []
  | e :: rest =>
      (match upd.find? (fun u => u.id == e.id) with
       | some u => u
       | none => e) :: applyZUpdates upd rest

/-- The list `[base, base + 1, ..., base + n - 1]` of consecutive z-indexes. -/
def intRange (base : Int) : Nat → List Int
  | 0 => []
  | n + 1 => base :: intRange (base + 1) n

/-- Model of `_reorder_global`: sort ALL elements (children included) by
`zIndex`, pop the target, reinsert per command, renumber the whole document
`0..n-1`. -/
def reorderGlobal (ws : Workspace) (target : Elem) (command : String) :
    Workspace × List Elem :=
  let allEls := sortByZ ws.elements
  match idxOf? target allEls with
  | none => (ws, [])
  | some ci =>
      let popped := listEraseAt allEls ci
      let inserted : Option (List Elem) :=
        if command == "BRING_FORWARD" then
          some (listInsertAt target (min (ci + 1) popped.length) popped)
        else if command == "SEND_BACKWARD" then
          some (listInsertAt target (ci - 1) popped)
        else if command == "BRING_TO_FRONT" then
          some (popped ++ [target])
        else if command == "SEND_TO_BACK" then
          some (target :: popped)
        else none
      match inserted with
      | none => (ws, [])
      | some lst =>
          let renum := renumberFrom 0 lst
          ({ ws with
             elements := applyZUpdates renum ws.elements,
             nextZIndex := (lst.length : Int) },
           renum)

/-- The base offset of `_reorder_siblings`: `parent.zIndex + 1` when the
parent id resolves, else `0`. -/
def siblingBase (ws : Workspace) (target : Elem) : Int :=
  match target.parentId with
  | some pid =>
      match findElem ws.elements pid with
      | some parent => parent.zIndex + 1
      | none => 0
  | none => 0

/-- Model of `_reorder_siblings`: sort the sibling set by `zIndex`, pop the
target, reinsert per command — note BRING_TO_FRONT shares the single-step
BRING_FORWARD branch and SEND_TO_BACK the SEND_BACKWARD branch — then
renumber the siblings from `parent.zIndex + 1`. -/
def reorderSiblings (ws : Workspace) (target : Elem) (command : String) :
    Workspace × List Elem :=
  let sibs := sortByZ (ws.elements.filter (fun e => e.parentId == target.parentId))
  match idxOf? target sibs with
  | none => (ws, [])
  | some ci =>
      let popped := listEraseAt sibs ci
      let inserted : Option (List Elem) :=
        if command == "BRING_FORWARD" || command == "BRING_TO_FRONT" then
          some (listInsertAt target (min (ci + 1) popped.length) popped)
        else if command == "SEND_BACKWARD" || command == "SEND_TO_BACK" then
          some (listInsertAt target (ci - 1) popped)
        else none
      match inserted with
      | none => (ws, [])
      | some lst =>
          let base := siblingBase ws target
          let renum := renumberFrom base lst
          ({ ws with
             elements := applyZUpdates renum ws.elements,
             nextZIndex := max ws.nextZIndex (base + (lst.length : Int)) },
           renum)

/-- Model of the public `reorder_element`: choose the sibling scope when the
target's `parentId` is truthy, else the global scope; commit when anything
was affected. -/
def reorderElement (ws : Workspace) (eid : String) (command : String) :
    Workspace × List Elem :=
  match findElem ws.elements eid with
  | none => (ws, [])
  | some target =>
      let r := if truthy target.parentId
               then reorderSiblings ws target command
               else reorderGlobal ws target command
      if r.2.isEmpty then r else (commitHistory r.1, r.2)

/-- Stable insertion for the presentation sort key `el.presentationOrder`
(all sorted elements have a non-null order). -/
def insertByPres (e : Elem) : List Elem → List Elem
  | [] => [e]
  | x :: xs =>
      if x.presentationOrder.getD 0 < e.presentationOrder.getD 0 then
        x :: insertByPres e xs
      else e :: x :: xs

/-- Model of `sorted(..., key=lambda el: el.presentationOrder)` (stable). -/
def sortByPres : List Elem → List Elem
  | [] => []
  | x :: xs => insertByPres x (sortByPres xs)

/-- The in-order frames (`isinstance(el, FrameElement)` and a non-null
`presentationOrder`), sorted by order. -/
def currentSlides (els : List Elem) : List Elem :=
  sortByPres (els.filter (fun e => e.element_type == "frame" && e.presentationOrder.isSome))

/-- Model of `_set_presentation_order`: every frame listed gets its list
position as order (and is broadcast); every other frame with a non-null
order gets it cleared (and is broadcast). Ids in the list that match no
frame are silently ignored but still occupy a list position. -/
def setPresentationOrder (ws : Workspace) (orderedFrameIds : List String) :
    Workspace × List Elem :=
  let step : Elem → Elem × Bool := fun e =>
    if e.element_type == "frame" then
      if orderedFrameIds.contains e.id then
        ({ e with presentationOrder := some ((orderedFrameIds.findIdx (fun i => i == e.id) : Nat) : Int) }, true)
      else if e.presentationOrder.isSome then
        ({ e with presentationOrder := none }, true)
      else (e, false)
    else (e, false)
  let pairs := ws.elements.map step
  ({ ws with elements := pairs.map Prod.fst },
   (pairs.filter (fun pr => pr.snd)).map Prod.fst)

/-- The payload of `update_presentation_order`: the `action` key with its
arguments (`none`/`""` frame id models a falsy `payload.get("frame_id")`). -/
inductive PresPayload where
  | set (orderedFrameIds : List String)
  | add (frameId : Option String)
  | other
deriving DecidableEq, Repr

/-- Model of `_update_presentation_order_internal`. -/
def updatePresentationOrderInternal (ws : Workspace) : PresPayload → Workspace × List Elem
  | .set ids => setPresentationOrder ws ids
  | .add fid? =>
      match fid? with
      | none => (ws, [])
      | some fid =>
          if fid == "" then (ws, [])
          else
            let ids := (currentSlides ws.elements).map (fun e => e.id)
            let ids' := if ids.contains fid then ids else ids ++ [fid]
            setPresentationOrder ws ids'
  | .other => (ws, [])

/-- Model of the public `update_presentation_order` (commits when frames
were touched). -/
def updatePresentationOrder (ws : Workspace) (p : PresPayload) : Workspace × List Elem :=
  let r := updatePresentationOrderInternal ws p
  if r.2.isEmpty then r else (commitHistory r.1, r.2)

/-- Position of the first element with the given id (models the
`next(el for el in ... if el.id == target_id)` plus `list.index` pair in
`_reorder_slide_internal`; `none` models the caught `StopIteration`). -/
def findIdxById (tid : String) : List Elem → Option Nat
  | [] => none
  | x :: xs => if x.id == tid then some 0 else (findIdxById tid xs).map (· + 1)

/-- Model of `_reorder_slide_internal`: locate the dragged frame among the
in-order slides (abort otherwise), remove it, locate the target in the
remainder (abort otherwise, with nothing mutated), reinsert before/after,
and re-apply the full order. -/
def reorderSlideInternal (ws : Workspace) (draggedId targetId : String)
    (position : String) : Workspace × List Elem :=
  let slides := currentSlides ws.elements
  match slides.find? (fun e => e.id == draggedId) with
  | none => (ws, [])
  | some dragged =>
      let remaining := slides.erase dragged
      match findIdxById targetId remaining with
      | none => (ws, [])
      | some ti =>
          let newList :=
            if position == "below" then listInsertAt dragged (ti + 1) remaining
            else listInsertAt dragged ti remaining
          setPresentationOrder ws (newList.map (fun e => e.id))

/-- Model of the public `reorder_slide` (commits when frames were touched). -/
def reorderSlide (ws : Workspace) (draggedId targetId position : String) :
    Workspace × List Elem :=
  let r := reorderSlideInternal ws draggedId targetId position
  if r.2.isEmpty then r else (commitHistory r.1, r.2)

/-- Sequential source deletion: `for an_id in source_element_ids:
deleted_ids.extend(self._delete_element_internal(an_id))`. -/
def deleteMany (fuel : Nat) : Workspace → List String → Option (Workspace × List String)
  | ws, [] => some (ws, [])
  | ws, eid :: rest =>
      match deleteElementInternal fuel ws eid with
      | none => none
      | some (ws', ids) =>
          match deleteMany fuel ws' rest with
          | none => none
          | some (ws'', ids') => some (ws'', ids ++ ids')

/-- Model of `create_component_from_elements`. `defId`/`instId` are the
uuids generated for the definition and the instance; `instValid` models
whether the instance's Pydantic construction succeeds (the failure arm is
the `except`-guarded rollback). The outer `none` propagates divergence of
the source-deletion BFS. Note the instance payload carries an empty
`properties` map. -/
def createComponentFromElements (fuel : Nat) (ws : Workspace) (name : String)
    (sourceElementIds : List String) (schema : List ComponentProperty)
    (defId instId : String) (instValid : Bool) :
    Option (Workspace × Option ComponentDefinition × Option Elem × List String) :=
  match sourceElementIds.filterMap (findElem ws.elements) with
  | [] => some (ws, none, none, [])
  | c :: cs =>
      let minX := cs.foldl (fun a e => min a e.x) c.x
      let minY := cs.foldl (fun a e => min a e.y) c.y
      let maxX := cs.foldl (fun a e => max a (e.x + e.width)) (c.x + c.width)
      let maxY := cs.foldl (fun a e => max a (e.y + e.height)) (c.y + c.height)
      let template := (c :: cs).map (fun e => { e with x := e.x - minX, y := e.y - minY })
      let newDef : ComponentDefinition :=
        { id := defId, name := name, template_elements := template, schema := schema }
      let ws1 := { ws with component_definitions := defPut ws.component_definitions newDef }
      let instPayload : Payload :=
        { element_type := "component_instance", id := instId, definition_id := newDef.id,
          x := minX, y := minY, width := maxX - minX, height := maxY - minY,
          properties := [], valid := instValid }
      match createElementFromPayload ws1 instPayload with
      | (ws2, none) =>
          some ({ ws2 with component_definitions := defDel ws2.component_definitions newDef.id },
                none, none, [])
      | (ws2, some inst) =>
          match deleteMany fuel ws2 sourceElementIds with
          | none => none
          | some (ws3, deletedIds) => some (ws3, some newDef, some inst, deletedIds)

/-! Concrete document states, built from `initWorkspace` through the public
operations, used to evaluate the claims on explicit inputs. -/

/-- Payload shorthand for the concrete states. -/
def mkPayload (t i : String) (pid : Option String) (x y w h : Int) : Payload :=
  { element_type := t, id := i, parentId := pid, x := x, y := y, width := w, height := h }

/-- A frame `p1` holding shapes `a1`, `b1`, `c1`, plus a root shape `s1`
(z-indexes 1..5 in creation order). -/
def zws : Workspace :=
  let w1 := (createElementFromPayload initWorkspace (mkPayload "frame" "p1" none 0 0 200 200)).1
  let w2 := (createElementFromPayload w1 (mkPayload "shape" "a1" (some "p1") 0 0 10 10)).1
  let w3 := (createElementFromPayload w2 (mkPayload "shape" "b1" (some "p1") 1 1 10 10)).1
  let w4 := (createElementFromPayload w3 (mkPayload "shape" "c1" (some "p1") 2 2 10 10)).1
  (createElementFromPayload w4 (mkPayload "shape" "s1" none 5 5 10 10)).1

/-- Two root frames `f1`, `f2` with `f2` already reparented under `f1`. -/
def twoFrames : Workspace :=
  let wA := (createElementFromPayload initWorkspace (mkPayload "frame" "f1" none 0 0 100 100)).1
  let wB := (createElementFromPayload wA (mkPayload "frame" "f2" none 0 0 100 100)).1
  match reparentElement 10 wB "f2" (some "f1") with
  | some r => r.1
  | none => wB

/-- The reparent request that closes the ownership cycle `f1 → f2 → f1`. -/
def cycleReq : Option (Workspace × List Elem) :=
  reparentElement 10 twoFrames "f1" (some "f2")

/-- The document after the cycle-closing reparent was accepted. -/
def cyclicWs : Workspace :=
  match cycleReq with
  | some r => r.1
  | none => twoFrames

/-- The store entry of `f1` in the cyclic document. -/
def f1cyc : Elem := (findElem cyclicWs.elements "f1").getD { id := "", element_type := "" }

/-- The store entry of `f2` in the cyclic document. -/
def f2cyc : Elem := (findElem cyclicWs.elements "f2").getD { id := "", element_type := "" }

/-- A frame `fp` at (100,100) holding a shape `ch` at relative (10,10). -/
def gWsBefore : Workspace :=
  let v1 := (createElementFromPayload initWorkspace (mkPayload "frame" "fp" none 100 100 200 200)).1
  (createElementFromPayload v1 (mkPayload "shape" "ch" (some "fp") 10 10 20 20)).1

/-- The store entry of `ch` before grouping. -/
def chBefore : Elem := (findElem gWsBefore.elements "ch").getD { id := "", element_type := "" }

/-- The document after `group_elements(["ch"])`. -/
def gWsAfter : Workspace := (groupElements gWsBefore ["ch"] "g1").1

/-- The store entry of `ch` after grouping. -/
def chAfter : Elem := (findElem gWsAfter.elements "ch").getD { id := "", element_type := "" }

/-- A text `t1` (content "hello") and a shape `s1`, the component-creation
sources of the spec's own example. -/
def compWs : Workspace :=
  let u1 := (createElementFromPayload initWorkspace
    { element_type := "text", id := "t1", x := 0, y := 0, width := 10, height := 10,
      content := "hello" }).1
  (createElementFromPayload u1 (mkPayload "shape" "s1" none 5 5 10 10)).1

/-- The schema of the spec's component example. -/
def cardSchema : List ComponentProperty :=
  [{ prop_name := "label", target_element_id := "t1", target_property := "content" }]

/-- The component-creation call of the spec's example (instance construction
succeeds). -/
def c2res : Option (Workspace × Option ComponentDefinition × Option Elem × List String) :=
  createComponentFromElements 10 compWs "Card" ["t1", "s1"] cardSchema "d1" "i1" true

/-- The same call with a failing instance construction (the rollback arm). -/
def c8res : Option (Workspace × Option ComponentDefinition × Option Elem × List String) :=
  createComponentFromElements 10 compWs "Card" ["t1", "s1"] cardSchema "d1" "i1" false

/-- A document with one frame `pf1` placed in the presentation order. -/
def presWs : Workspace :=
  let pf := (createElementFromPayload initWorkspace (mkPayload "frame" "pf1" none 0 0 10 10)).1
  (updatePresentationOrder pf (.set ["pf1"])).1

/-- A `set` presentation payload containing an id that resolves to no frame. -/
def c9call : Workspace × List Elem :=
  updatePresentationOrder presWs (.set ["bogus", "pf1"])

/-- A payload with the `"group"` variant tag. -/
def groupPayload : Payload := mkPayload "group" "gg" none 0 0 1 1

/-- The workspace left behind by the failing component-creation call. -/
def c8ws : Workspace :=
  match c8res with
  | some r => r.1
  | none => compWs

/-- The spec's grouping example: root shapes `A` (10,10,20,20) and `B`
(50,50,10,10). -/
def abWs : Workspace :=
  let v1 := (createElementFromPayload initWorkspace (mkPayload "shape" "A" none 10 10 20 20)).1
  (createElementFromPayload v1 (mkPayload "shape" "B" none 50 50 10 10)).1

/-- The spec's grouping example after `group(["A", "B"])`. -/
def abGrouped : Workspace := (groupElements abWs ["A", "B"] "G").1

/-- The store entry of `A` before grouping. -/
def elemA : Elem := (findElem abWs.elements "A").getD { id := "", element_type := "" }

/-- The store entry of `A` after grouping. -/
def elemA2 : Elem := (findElem abGrouped.elements "A").getD { id := "", element_type := "" }

/-- The history effect of a committing operation that snapshots its final
state: the operation computes a new element collection and ends in
`_commit_history`. Every public committing operation has this shape except
`create_component_from_elements`, which commits mid-operation and then
keeps mutating — that operation is modelled separately by
`createComponentFromElements` and breaks the round-trip claim (see the C3
counterexample). -/
def commitOp (ws : Workspace) (es : List Elem) : Workspace :=
  commitHistory { ws with elements := es }

/-- A sequence of committing operations, given by their element post-states. -/
def applyCommits : Workspace → List (List Elem) → Workspace
  | ws, [] => ws
  | ws, es :: rest => applyCommits (commitOp ws es) rest

/-- Calling `undo` `n` times (the boundary `None` leaves the state
unchanged, as in the source). -/
def undoN : Nat → Workspace → Workspace
  | 0, ws => ws
  | n + 1, ws => undoN n ((undo ws).getD ws)

/-- Calling `redo` `n` times. -/
def redoN : Nat → Workspace → Workspace
  | 0, ws => ws
  | n + 1, ws => redoN n ((redo ws).getD ws)

/-- An element used by the concrete undo/redo run. -/
def wElem : Elem := { id := "w1", element_type := "shape" }

/-- The store entry of the root shape `s1` in the layering test state. -/
def zwsS1 : Elem := (findElem zws.elements "s1").getD { id := "", element_type := "" }

/-- The store entry of the nested shape `a1` in the layering test state. -/
def zwsA1 : Elem := (findElem zws.elements "a1").getD { id := "", element_type := "" }

/-- The entry of `s1` after a global BRING_TO_FRONT. -/
def zwsFrontS1 : Elem :=
  (findElem (reorderElement zws "s1" "BRING_TO_FRONT").1.elements "s1").getD
    { id := "", element_type := "" }

/-- The entry of `p1` after a global BRING_TO_FRONT of `s1`. -/
def zwsFrontP1 : Elem :=
  (findElem (reorderElement zws "s1" "BRING_TO_FRONT").1.elements "p1").getD
    { id := "", element_type := "" }

/-- The entry of `s1` after a global SEND_TO_BACK. -/
def zwsBackS1 : Elem :=
  (findElem (reorderElement zws "s1" "SEND_TO_BACK").1.elements "s1").getD
    { id := "", element_type := "" }

/-- The entry of `p1` after a global SEND_TO_BACK of `s1`. -/
def zwsBackP1 : Elem :=
  (findElem (reorderElement zws "s1" "SEND_TO_BACK").1.elements "p1").getD
    { id := "", element_type := "" }

/-- The workspace produced by the successful component-creation call. -/
def c2wsOut : Workspace :=
  match c2res with
  | some r => r.1
  | none => compWs

/-- The definition produced by the successful component-creation call. -/
def c2defOut : ComponentDefinition :=
  (c2res.bind (fun r => r.2.1)).getD { id := "", name := "", template_elements := [], schema := [] }

/-- The instance produced by the successful component-creation call. -/
def c2inst : Elem :=
  (c2res.bind (fun r => r.2.2.1)).getD { id := "", element_type := "" }

/-- The deleted ids of the successful component-creation call. -/
def c2deleted : List String :=
  match c2res with
  | some r => r.2.2.2
  | none => []

/-! Theorems settling the claims. -/

/-- C1: the claim that after a `reorderElement` call the zIndex values of an
ordering scope (here the root scope, the elements with null `parentId`) form
a permutation of `0..n-1` is false: `_reorder_global` renumbers the ENTIRE
element collection, so in a document with a frame, three children and a root
shape, bringing the root shape to front leaves the two root elements with
zIndexes `{0, 4}` — not a permutation of `{0, 1}`. -/
theorem C1_counterexample :
    ¬ List.Perm
        (((reorderElement zws "s1" "BRING_TO_FRONT").1.elements.filter
          (fun e => e.parentId == none)).map Elem.zIndex)
        (intRange 0 (((reorderElement zws "s1" "BRING_TO_FRONT").1.elements.filter
          (fun e => e.parentId == none)).length)) := by decide

/-- C6: the claim that BRING_TO_FRONT makes the target the frontmost element
of its scope is false for the sibling scope: `_reorder_siblings` handles
BRING_TO_FRONT in the same clamped single-step branch as BRING_FORWARD, so
bringing `a1` (backmost of three siblings) "to front" moves it exactly one
step up and leaves `c1` above it. -/
theorem C6_counterexample :
    ¬ (∀ a ∈ (reorderElement zws "a1" "BRING_TO_FRONT").1.elements, a.id = "a1" →
        ∀ e ∈ (reorderElement zws "a1" "BRING_TO_FRONT").1.elements,
          e.parentId = a.parentId → e.zIndex ≤ a.zIndex) := by decide

/-- C4: the code accepts a reparent request that introduces an ownership
cycle. Starting from two root frames with `f2` reparented under `f1`, the
request `reparent_element("f1", "f2")` passes the only validation the source
performs (the new parent exists and is a container) and succeeds — the
affected list has length 1 — leaving `f1.parentId = "f2"` and
`f2.parentId = "f1"`, so `f1` is its own transitive ancestor. The claim
(and the spec's invariant 2) says such a request is rejected as a no-op. -/
theorem C4_cycle_accepted :
    cycleReq.map (fun r => r.2.length) = some 1 ∧
    (findElem cyclicWs.elements "f1").map Elem.parentId = some (some "f2") ∧
    (findElem cyclicWs.elements "f2").map Elem.parentId = some (some "f1") := by decide

/-- Helper for C5: on the reachable cyclic document, the coordinate
resolution of `f1` and of `f2` exhausts any recursion budget. -/
theorem cyclicPairDiverges (n : Nat) :
    getAbsoluteCoords cyclicWs.elements n f1cyc = none ∧
    getAbsoluteCoords cyclicWs.elements n f2cyc = none := by
  induction n with
  | zero => exact ⟨rfl, rfl⟩
  | succ n ih =>
      refine ⟨?_, ?_⟩
      · have h1 : getAbsoluteCoords cyclicWs.elements (n + 1) f1cyc =
            (getAbsoluteCoords cyclicWs.elements n f2cyc).map
              (fun p => (f1cyc.x + p.1, f1cyc.y + p.2)) := rfl
        rw [h1, ih.2]
        rfl
      · have h2 : getAbsoluteCoords cyclicWs.elements (n + 1) f2cyc =
            (getAbsoluteCoords cyclicWs.elements n f1cyc).map
              (fun p => (f2cyc.x + p.1, f2cyc.y + p.2)) := rfl
        rw [h2, ih.1]
        rfl

/-- C5: the claim that every operation terminates on every reachable
document is false as the code stands: on the cyclic document reachable via
two creates and two accepted reparents, `_get_absolute_coords` on `f1` never
returns, whatever recursion budget it is given (so any operation that
resolves `f1`'s absolute position — grouping, a further reparent — runs
forever). -/
theorem C5_resolution_diverges (fuel : Nat) :
    getAbsoluteCoords cyclicWs.elements fuel f1cyc = none :=
  (cyclicPairDiverges fuel).1

/-- C7: the claim that `group_elements` leaves every member's absolute
canvas position unchanged is false when a member sits inside a container:
grouping the child `ch` of frame `fp` (absolute position (110,110)) creates
the group at `ch`'s STORED coordinates (10,10) at root level, moving `ch`'s
absolute position to (10,10). -/
theorem C7_counterexample :
    getAbsoluteCoords gWsBefore.elements 5 chBefore = some (110, 110) ∧
    getAbsoluteCoords gWsAfter.elements 5 chAfter = some (10, 10) ∧
    getAbsoluteCoords gWsAfter.elements 5 chAfter ≠
      getAbsoluteCoords gWsBefore.elements 5 chBefore := by decide

/-- C2: the claim that the created instance's properties map is seeded from
the schema is false: on the spec's own example the call succeeds, but the
instance is created with an empty properties map — there is no `"label"`
binding at all, let alone one equal to `t1`'s content. -/
theorem C2_counterexample :
    (c2res.bind (fun r => r.2.2.1)).map Elem.properties = some [] ∧
    (c2res.bind (fun r => r.2.2.1)).map
      (fun i => i.properties.find? (fun pr => pr.1 == "label")) = some none := by decide

/-- C9: the claim that an unresolvable id aborts the presentation operation
with an empty result and no change is false for `setPresentationOrder`: with
frame `pf1` at order 0, the payload `["bogus", "pf1"]` is not aborted — the
result is non-empty and `pf1`'s order changes to its list position 1. -/
theorem C9_counterexample :
    (findElem presWs.elements "pf1").map Elem.presentationOrder = some (some 0) ∧
    c9call.2 ≠ [] ∧
    c9call.1.elements ≠ presWs.elements ∧
    (findElem c9call.1.elements "pf1").map Elem.presentationOrder = some (some 1) := by decide

/-- C10: `_create_element_internal`'s dispatch table has no `"group"` entry,
so `create_element_from_payload` with a `"group"` payload fails and leaves
the workspace (store, counters, history) untouched. -/
theorem C10_group_not_creatable (ws : Workspace) (p : Payload)
    (h : p.element_type = "group") :
    createElementFromPayload ws p = (ws, none) := by
  have hm : modelMapHit p.element_type = false := by rw [h]; rfl
  simp [createElementFromPayload, createElementInternal, hm]

/-- Witness for C10 at a concrete group payload. -/
theorem C10_witness :
    createElementFromPayload initWorkspace groupPayload = (initWorkspace, none) :=
  C10_group_not_creatable initWorkspace groupPayload rfl

/-- Indexing to the left of an append. -/
theorem nthD_append_left (l m : List (List Elem)) (i : Nat) (h : i < l.length) :
    nthD (l ++ m) i = nthD l i := by
  induction l generalizing i with
  | nil => cases h
  | cons x xs ih =>
      cases i with
      | zero => rfl
      | succ j => exact ih j (by simpa using Nat.lt_of_succ_lt_succ h)

/-- Indexing to the right of an append. -/
theorem nthD_append_right (l m : List (List Elem)) (j : Nat) :
    nthD (l ++ m) (l.length + j) = nthD m j := by
  induction l with
  | nil => simp [nthD]
  | cons x xs ih =>
      show nthD (x :: (xs ++ m)) (xs.length + 1 + j) = nthD m j
      have e1 : xs.length + 1 + j = (xs.length + j) + 1 := by omega
      rw [e1]
      exact ih

/-- Indexing inside a take. -/
theorem nthD_take (l : List (List Elem)) (n i : Nat) (h : i < n) :
    nthD (l.take n) i = nthD l i := by
  induction l generalizing n i with
  | nil => simp [nthD]
  | cons x xs ih =>
      cases n with
      | zero => cases h
      | succ m =>
          cases i with
          | zero => rfl
          | succ j => exact ih m j (Nat.lt_of_succ_lt_succ h)

/-- The last position of a non-empty list. -/
theorem nthD_last (es : List Elem) (rest : List (List Elem)) :
    nthD (es :: rest) rest.length = lastD es rest := by
  induction rest generalizing es with
  | nil => rfl
  | cons r rs ih =>
      show nthD (r :: rs) rs.length = lastD r rs
      exact ih r

/-- Shape of a non-empty run of committing operations: the retained history
prefix plus the post-states, cursor at the end, live elements equal to the
last post-state. -/
theorem applyCommits_cons_eq (rest : List (List Elem)) :
    ∀ (ws : Workspace) (es : List Elem), ws.historyIndex < ws.history.length →
      applyCommits ws (es :: rest) =
        { ws with elements := lastD es rest,
                  history := ws.history.take (ws.historyIndex + 1) ++ es :: rest,
                  historyIndex := ws.historyIndex + rest.length + 1 } := by
  induction rest with
  | nil =>
      intro ws es _
      rfl
  | cons es2 rest2 ih =>
      intro ws es h
      have hstep : applyCommits ws (es :: es2 :: rest2) =
          applyCommits (commitOp ws es) (es2 :: rest2) := rfl
      have hlt2 : (commitOp ws es).historyIndex < (commitOp ws es).history.length := by
        show ws.historyIndex + 1 < (ws.history.take (ws.historyIndex + 1) ++ [es]).length
        rw [List.length_append, List.length_take]
        simp only [List.length_singleton]
        omega
      rw [hstep, ih (commitOp ws es) es2 hlt2]
      have htake : (ws.history.take (ws.historyIndex + 1) ++ [es]).take
          (ws.historyIndex + 1 + 1) = ws.history.take (ws.historyIndex + 1) ++ [es] := by
        apply List.take_of_length_le
        rw [List.length_append, List.length_take]
        simp only [List.length_singleton]
        omega
      show ({ ws with
        elements := lastD es2 rest2,
        history := (ws.history.take (ws.historyIndex + 1) ++ [es]).take
          (ws.historyIndex + 1 + 1) ++ es2 :: rest2,
        historyIndex := ws.historyIndex + 1 + rest2.length + 1 } : Workspace) = _
      rw [htake]
      have e1 : ws.historyIndex + 1 + rest2.length + 1 =
          ws.historyIndex + (rest2.length + 1) + 1 := by omega
      have e2 : (ws.history.take (ws.historyIndex + 1) ++ [es]) ++ es2 :: rest2 =
          ws.history.take (ws.historyIndex + 1) ++ es :: es2 :: rest2 := by
        rw [List.append_assoc]
        rfl
      rw [e1, e2]
      rfl

/-- Repeated undo from a consistent state steps the cursor back `k` places
and restores the snapshot there. -/
theorem undoN_eq (k : Nat) :
    ∀ ws : Workspace, k ≤ ws.historyIndex →
      nthD ws.history ws.historyIndex = ws.elements →
      undoN k ws = { ws with historyIndex := ws.historyIndex - k,
                             elements := nthD ws.history (ws.historyIndex - k) } := by
  induction k with
  | zero =>
      intro ws _ hinv
      show ws = { ws with
                  historyIndex := ws.historyIndex - 0,
                  elements := nthD ws.history (ws.historyIndex - 0) }
      rw [Nat.sub_zero, hinv]
  | succ k ih =>
      intro ws hk hinv
      have hpos : 0 < ws.historyIndex := by omega
      have hu : undo ws = some { ws with
          historyIndex := ws.historyIndex - 1,
          elements := nthD ws.history (ws.historyIndex - 1) } := by
        simp [undo, hpos]
      have hstep : undoN (k + 1) ws = undoN k ((undo ws).getD ws) := rfl
      rw [hstep, hu]
      simp only [Option.getD_some]
      rw [ih { ws with
               historyIndex := ws.historyIndex - 1,
               elements := nthD ws.history (ws.historyIndex - 1) }
            (by show k ≤ ws.historyIndex - 1; omega) rfl]
      show ({ ws with
              historyIndex := ws.historyIndex - 1 - k,
              elements := nthD ws.history (ws.historyIndex - 1 - k) } : Workspace) = _
      have e1 : ws.historyIndex - 1 - k = ws.historyIndex - (k + 1) := by omega
      rw [e1]

/-- Repeated redo from a consistent state steps the cursor forward `k`
places and restores the snapshot there. -/
theorem redoN_eq (k : Nat) :
    ∀ ws : Workspace, ws.historyIndex + k < ws.history.length →
      nthD ws.history ws.historyIndex = ws.elements →
      redoN k ws = { ws with historyIndex := ws.historyIndex + k,
                             elements := nthD ws.history (ws.historyIndex + k) } := by
  induction k with
  | zero =>
      intro ws _ hinv
      show ws = { ws with
                  historyIndex := ws.historyIndex + 0,
                  elements := nthD ws.history (ws.historyIndex + 0) }
      rw [Nat.add_zero, hinv]
  | succ k ih =>
      intro ws hk hinv
      have hlt : ws.historyIndex + 1 < ws.history.length := by omega
      have hr : redo ws = some { ws with
          historyIndex := ws.historyIndex + 1,
          elements := nthD ws.history (ws.historyIndex + 1) } := by
        simp [redo, hlt]
      have hstep : redoN (k + 1) ws = redoN k ((redo ws).getD ws) := rfl
      rw [hstep, hr]
      simp only [Option.getD_some]
      rw [ih { ws with
               historyIndex := ws.historyIndex + 1,
               elements := nthD ws.history (ws.historyIndex + 1) }
            (by show ws.historyIndex + 1 + k < ws.history.length; omega) rfl]
      show ({ ws with
              historyIndex := ws.historyIndex + 1 + k,
              elements := nthD ws.history (ws.historyIndex + 1 + k) } : Workspace) = _
      have e1 : ws.historyIndex + 1 + k = ws.historyIndex + (k + 1) := by omega
      rw [e1]

/-- C3 (amended): the undo/redo round trip holds for runs of committing
operations whose commit snapshot is their final element collection
(every public committing operation except `create_component_from_elements`),
started from a state whose cursor points at a snapshot of the live
elements: N undos restore the pre-run collection exactly, and N further
redos restore the final collection exactly. The counterexample shows both
restrictions are necessary — the component operation commits mid-way, which
breaks the redo half and leaves a state violating the cursor condition. -/
theorem C3_undo_redo (ws : Workspace) (ops : List (List Elem))
    (hlt : ws.historyIndex < ws.history.length)
    (hinv : nthD ws.history ws.historyIndex = ws.elements) :
    (undoN ops.length (applyCommits ws ops)).elements = ws.elements ∧
    (redoN ops.length (undoN ops.length (applyCommits ws ops))).elements =
      (applyCommits ws ops).elements := by
  cases ops with
  | nil => simp [applyCommits, undoN, redoN]
  | cons es rest =>
      rw [applyCommits_cons_eq rest ws es hlt]
      have hlenH : (ws.history.take (ws.historyIndex + 1)).length = ws.historyIndex + 1 := by
        rw [List.length_take]; omega
      have hinv2 : nthD (ws.history.take (ws.historyIndex + 1) ++ es :: rest)
          (ws.historyIndex + rest.length + 1) = lastD es rest := by
        have e2 : ws.historyIndex + rest.length + 1 =
            (ws.history.take (ws.historyIndex + 1)).length + rest.length := by
          rw [hlenH]; omega
        rw [e2, nthD_append_right]
        exact nthD_last es rest
      have hbase : nthD (ws.history.take (ws.historyIndex + 1) ++ es :: rest)
          ws.historyIndex = ws.elements := by
        rw [nthD_append_left _ _ _ (by rw [hlenH]; omega),
            nthD_take _ _ _ (Nat.lt_succ_self _), hinv]
      have hu := undoN_eq (rest.length + 1)
          { ws with elements := lastD es rest,
                    history := ws.history.take (ws.historyIndex + 1) ++ es :: rest,
                    historyIndex := ws.historyIndex + rest.length + 1 }
          (by show rest.length + 1 ≤ ws.historyIndex + rest.length + 1; omega)
          hinv2
      rw [show (es :: rest).length = rest.length + 1 from rfl, hu]
      have e3 : ws.historyIndex + rest.length + 1 - (rest.length + 1) =
          ws.historyIndex := by omega
      constructor
      · show nthD (ws.history.take (ws.historyIndex + 1) ++ es :: rest)
          (ws.historyIndex + rest.length + 1 - (rest.length + 1)) = ws.elements
        rw [e3]
        exact hbase
      · have hr := redoN_eq (rest.length + 1)
            { ws with
              elements := nthD (ws.history.take (ws.historyIndex + 1) ++ es :: rest)
                (ws.historyIndex + rest.length + 1 - (rest.length + 1)),
              history := ws.history.take (ws.historyIndex + 1) ++ es :: rest,
              historyIndex := ws.historyIndex + rest.length + 1 - (rest.length + 1) }
            (by show ws.historyIndex + rest.length + 1 - (rest.length + 1) + (rest.length + 1) <
                  (ws.history.take (ws.historyIndex + 1) ++ es :: rest).length
                rw [List.length_append, hlenH, List.length_cons]
                omega)
            rfl
        rw [hr]
        show nthD (ws.history.take (ws.historyIndex + 1) ++ es :: rest)
            (ws.historyIndex + rest.length + 1 - (rest.length + 1) + (rest.length + 1)) =
          lastD es rest
        have e4 : ws.historyIndex + rest.length + 1 - (rest.length + 1) + (rest.length + 1) =
            ws.historyIndex + rest.length + 1 := by omega
        rw [e4]
        exact hinv2

/-- Witness for C3: two committing operations on the fresh workspace,
undone and redone twice. -/
theorem C3_undo_redo_witness :
    (undoN 2 (applyCommits initWorkspace [[wElem], []])).elements =
      initWorkspace.elements ∧
    (redoN 2 (undoN 2 (applyCommits initWorkspace [[wElem], []]))).elements =
      (applyCommits initWorkspace [[wElem], []]).elements := by
  have h := C3_undo_redo initWorkspace [[wElem], []] (by decide) (by decide)
  simpa using h

/-- C3: the round-trip claim as stated is false on the code:
`create_component_from_elements` is a single committing operation, but it
commits mid-operation — while the sources and the new instance are all
present — and then deletes the sources with the non-committing internal
delete. On the spec's Card example, one undo after the call does restore
the pre-call collection, but the following redo restores
sources-plus-instance, not the final post-operation collection. -/
theorem C3_counterexample :
    (undoN 1 c2wsOut).elements = compWs.elements ∧
    (redoN 1 (undoN 1 c2wsOut)).elements ≠ c2wsOut.elements := by decide

/-- A failed `create_element_from_payload` leaves the workspace untouched. -/
theorem createElementFromPayload_none (ws w : Workspace) (p : Payload)
    (h : createElementFromPayload ws p = (w, none)) : w = ws := by
  unfold createElementFromPayload at h
  split at h
  · simp at h
  · rename_i heq
    unfold createElementInternal at heq
    split at heq
    · split at heq
      · simp at heq
      · simp at h heq
        rw [← h, ← heq]
    · simp at h heq
      rw [← h, ← heq]

/-- A successful `create_element_from_payload` returns an element carrying
the payload's properties map. -/
theorem createElementFromPayload_props (ws w : Workspace) (p : Payload) (e : Elem)
    (h : createElementFromPayload ws p = (w, some e)) : e.properties = p.properties := by
  unfold createElementFromPayload at h
  split at h
  · rename_i heq
    unfold createElementInternal addElement at heq
    split at heq
    · split at heq
      · simp [elemOfPayload] at heq
        simp at h
        rw [← h.2, ← heq.2]
      · simp at heq
    · simp at heq
  · simp at h

/-- Registering a fresh definition and deleting it again restores the
catalogue. -/
theorem defPut_defDel_fresh (defs : List ComponentDefinition) (d : ComponentDefinition)
    (did : String) (hid : d.id = did) (h : findDef defs did = none) :
    defDel (defPut defs d) did = defs := by
  subst hid
  unfold findDef at h
  have hput : defPut defs d = defs ++ [d] := by
    unfold defPut
    rw [h]
    rfl
  rw [hput]
  unfold defDel
  rw [List.filter_append]
  have h1 : defs.filter (fun x => x.id != d.id) = defs := by
    apply List.filter_eq_self.mpr
    intro a ha
    have := List.find?_eq_none.mp h a ha
    simpa using this
  have h2 : [d].filter (fun x => x.id != d.id) = [] := by
    simp [List.filter]
  rw [h1, h2, List.append_nil]

/-- C8: `create_component_from_elements` is atomic on failure — whenever it
returns the failure triple (no definition, no instance, no deleted ids),
the element collection and the definition catalogue are exactly as before
the call. The freshness hypothesis is the uuid-uniqueness of the generated
definition id. -/
theorem C8_rollback (fuel : Nat) (ws : Workspace) (name : String)
    (ids : List String) (schema : List ComponentProperty) (defId instId : String)
    (instValid : Bool) (ws' : Workspace)
    (hfresh : findDef ws.component_definitions defId = none)
    (hres : createComponentFromElements fuel ws name ids schema defId instId instValid =
            some (ws', none, none, [])) :
    ws'.elements = ws.elements ∧
    ws'.component_definitions = ws.component_definitions := by
  unfold createComponentFromElements at hres
  split at hres
  · simp at hres
    rw [← hres]
    exact ⟨rfl, rfl⟩
  · simp only [] at hres
    split at hres
    · rename_i ws2 heq
      simp only [Option.some.injEq, Prod.mk.injEq] at hres
      have hws2 := createElementFromPayload_none _ _ _ heq
      rw [← hres.1, hws2]
      refine ⟨rfl, ?_⟩
      exact defPut_defDel_fresh ws.component_definitions _ _ rfl hfresh
    · split at hres
      · simp at hres
      · simp at hres

/-- Witness for C8 at the concrete failing call (instance construction
fails, so the registered definition is rolled back). -/
theorem C8_rollback_witness :
    c8ws.elements = compWs.elements ∧
    c8ws.component_definitions = compWs.component_definitions :=
  C8_rollback 10 compWs "Card" ["t1", "s1"] cardSchema "d1" "i1" false c8ws
    (by decide) (by decide)

/-- C2 (amended): whenever `create_component_from_elements` succeeds, the
created instance's properties map is empty — the schema is stored on the
definition, but no initial property values are seeded from the sources. -/
theorem C2_amended (fuel : Nat) (ws : Workspace) (name : String) (ids : List String)
    (schema : List ComponentProperty) (defId instId : String) (instValid : Bool)
    (ws' : Workspace) (d : ComponentDefinition) (inst : Elem) (deleted : List String)
    (hres : createComponentFromElements fuel ws name ids schema defId instId instValid =
            some (ws', some d, some inst, deleted)) :
    inst.properties = [] := by
  unfold createComponentFromElements at hres
  split at hres
  · simp at hres
  · simp only [] at hres
    split at hres
    · simp at hres
    · rename_i ws2 inst0 heq
      split at hres
      · simp at hres
      · simp only [Option.some.injEq, Prod.mk.injEq] at hres
        have hprops := createElementFromPayload_props _ _ _ _ heq
        rw [← hres.2.2.1]
        exact hprops

/-- Witness for C2 (amended) at the spec's own component example. -/
theorem C2_amended_witness : c2inst.properties = [] :=
  C2_amended 10 compWs "Card" ["t1", "s1"] cardSchema "d1" "i1" true
    c2wsOut c2defOut c2inst c2deleted (by decide)

/-- A first-index search over a list none of whose entries has the id. -/
theorem findIdxById_none_of_all (tid : String) :
    ∀ l : List Elem, (∀ e ∈ l, (e.id == tid) = false) → findIdxById tid l = none := by
  intro l
  induction l with
  | nil => intro _; rfl
  | cons x xs ih =>
      intro h
      unfold findIdxById
      rw [h x (List.mem_cons_self x xs)]
      rw [ih (fun e he => h e (List.mem_cons_of_mem x he))]
      rfl

/-- C9 (amended): `reorder_slide` — unlike the set/add presentation
operations — aborts with an empty result and an unchanged workspace when the
dragged id or the target id does not name an in-order frame. -/
theorem C9_amended (ws : Workspace) (draggedId targetId position : String)
    (h : (∀ e ∈ currentSlides ws.elements, e.id ≠ draggedId) ∨
         (∀ e ∈ currentSlides ws.elements, e.id ≠ targetId)) :
    reorderSlide ws draggedId targetId position = (ws, []) := by
  have hmain : reorderSlideInternal ws draggedId targetId position = (ws, []) := by
    unfold reorderSlideInternal
    rcases h with h | h
    · have hfind : (currentSlides ws.elements).find? (fun e => e.id == draggedId) = none := by
        apply List.find?_eq_none.mpr
        intro e he
        simpa using h e he
      simp only [hfind]
    · cases hfind : (currentSlides ws.elements).find? (fun e => e.id == draggedId) with
      | none => simp only [hfind]
      | some dragged =>
          have hidx : findIdxById targetId
              ((currentSlides ws.elements).erase dragged) = none := by
            apply findIdxById_none_of_all
            intro e he
            have hmem : e ∈ currentSlides ws.elements := List.erase_subset _ _ he
            simpa using h e hmem
          simp only [hfind, hidx]
  unfold reorderSlide
  rw [hmain]
  rfl

/-- Witness for C9 (amended): a dragged id naming no in-order frame. -/
theorem C9_amended_witness : reorderSlide presWs "nope" "pf1" "below" = (presWs, []) :=
  C9_amended presWs "nope" "pf1" "below" (Or.inl (by decide))

/-- Lookup at a matching head. -/
theorem findElem_cons_pos (x : Elem) (xs : List Elem) (s : String)
    (h : (x.id == s) = true) : findElem (x :: xs) s = some x :=
  @List.find?_cons_of_pos Elem (fun e => e.id == s) x xs h

/-- Lookup past a non-matching head. -/
theorem findElem_cons_neg (x : Elem) (xs : List Elem) (s : String)
    (h : (x.id == s) = false) : findElem (x :: xs) s = findElem xs s :=
  @List.find?_cons_of_neg Elem (fun e => e.id == s) x xs (by simp [h])

/-- A successful lookup survives appending on the right. -/
theorem findElem_append_some (l m : List Elem) (s : String) (e : Elem)
    (h : findElem l s = some e) : findElem (l ++ m) s = some e := by
  unfold findElem at h ⊢
  rw [List.find?_append, h]
  rfl

/-- A failed lookup on the left delegates to the right of an append. -/
theorem findElem_append_none (l m : List Elem) (s : String)
    (h : findElem l s = none) : findElem (l ++ m) s = findElem m s := by
  unfold findElem at h ⊢
  rw [List.find?_append, h]
  rfl

/-- Lookup through an id-preserving conditional update of one key. -/
theorem findElem_map_upd (els : List Elem) (cid s : String) (φ : Elem → Elem)
    (hid : ∀ e, (φ e).id = e.id) :
    findElem (els.map (fun e => if e.id == cid then φ e else e)) s =
      if s = cid then (findElem els s).map φ else findElem els s := by
  induction els with
  | nil => by_cases hsc : s = cid <;> simp [findElem, hsc]
  | cons x xs ih =>
      rw [List.map_cons]
      show findElem ((if (x.id == cid) = true then φ x else x) ::
        xs.map (fun e => if e.id == cid then φ e else e)) s = _
      have hyid : (if (x.id == cid) = true then φ x else x).id = x.id := by
        by_cases hxc : (x.id == cid) = true
        · rw [if_pos hxc, hid x]
        · rw [if_neg hxc]
      by_cases hxs : (x.id == s) = true
      · rw [findElem_cons_pos _ _ _ (by rw [hyid]; exact hxs),
            findElem_cons_pos _ _ _ hxs]
        have hxseq : x.id = s := eq_of_beq hxs
        by_cases hsc : s = cid
        · have hxc : (x.id == cid) = true := beq_iff_eq.mpr (hxseq.trans hsc)
          simp [hxc, hsc]
        · have hxc : (x.id == cid) = false := by
            apply beq_eq_false_iff_ne.mpr
            rw [hxseq]; exact hsc
          simp [hxc, hsc]
      · have hxs2 : (x.id == s) = false := by
          cases hb : (x.id == s) with
          | true => exact absurd hb hxs
          | false => rfl
        rw [findElem_cons_neg _ _ _ (by rw [hyid]; exact hxs2),
            findElem_cons_neg _ _ _ hxs2]
        exact ih

/-- The per-child rewrite of grouping, as a function. -/
def groupUpd (g : Elem) (e : Elem) : Elem :=
  { e with parentId := some g.id, x := e.x - g.x, y := e.y - g.y }

/-- `groupRewrite` does not touch ids outside the child list. -/
theorem groupRewrite_not_mem (g : Elem) (s : String) :
    ∀ (cids : List String) (els : List Elem), s ∉ cids →
      findElem (groupRewrite g els cids) s = findElem els s := by
  intro cids
  induction cids with
  | nil => intro els _; rfl
  | cons cid rest ih =>
      intro els hs
      have hs1 : s ≠ cid := fun h => hs (h ▸ List.mem_cons_self cid rest)
      have hs2 : s ∉ rest := fun h => hs (List.mem_cons_of_mem cid h)
      show findElem (groupRewrite g
        (els.map (fun e => if e.id == cid then groupUpd g e else e)) rest) s = findElem els s
      rw [ih _ hs2, findElem_map_upd els cid s (groupUpd g) (fun e => rfl), if_neg hs1]

/-- `groupRewrite` applies the child rewrite exactly once to each listed id
(when the list has no duplicates). -/
theorem groupRewrite_mem (g : Elem) (s : String) :
    ∀ (cids : List String) (els : List Elem), cids.Nodup → s ∈ cids →
      findElem (groupRewrite g els cids) s = (findElem els s).map (groupUpd g) := by
  intro cids
  induction cids with
  | nil => intro els _ hs; cases hs
  | cons cid rest ih =>
      intro els hnd hs
      have hnd1 := List.nodup_cons.mp hnd
      show findElem (groupRewrite g
        (els.map (fun e => if e.id == cid then groupUpd g e else e)) rest) s =
        (findElem els s).map (groupUpd g)
      by_cases hsc : s = cid
      · have hs2 : s ∉ rest := hsc ▸ hnd1.1
        rw [groupRewrite_not_mem g s rest _ hs2,
            findElem_map_upd els cid s (groupUpd g) (fun e => rfl), if_pos hsc]
      · have hs2 : s ∈ rest := by
          cases List.mem_cons.mp hs with
          | inl h => exact absurd h hsc
          | inr h => exact h
        rw [ih _ hnd1.2 hs2,
            findElem_map_upd els cid s (groupUpd g) (fun e => rfl), if_neg hsc]

/-- A successful lookup returns an element carrying the looked-up id. -/
theorem findElem_some_id (els : List Elem) (i : String) (e : Elem)
    (h : findElem els i = some e) : e.id = i :=
  eq_of_beq (@List.find?_some Elem (fun x => x.id == i) e els h)

/-- The ids of the resolved elements are the resolvable ids, in order. -/
theorem filterMap_findElem_ids (els : List Elem) :
    ∀ ids : List String, (ids.filterMap (findElem els)).map Elem.id =
      ids.filter (fun i => (findElem els i).isSome) := by
  intro ids
  induction ids with
  | nil => rfl
  | cons i rest ih =>
      cases hfind : findElem els i with
      | none => simp [List.filterMap_cons, List.filter_cons, hfind, ih]
      | some e =>
          have hide : e.id = i := findElem_some_id els i e hfind
          simp [List.filterMap_cons, List.filter_cons, hfind, ih, hide]

/-- A resolved element looks itself up. -/
theorem mem_filterMap_findElem (els : List Elem) (ids : List String) (e : Elem)
    (he : e ∈ ids.filterMap (findElem els)) : findElem els e.id = some e := by
  obtain ⟨i, _, hfind⟩ := List.mem_filterMap.mp he
  have hide : e.id = i := findElem_some_id els i e hfind
  rw [hide]
  exact hfind

/-- The element store after a successful grouping: the fresh group is
appended and each resolved child id is rewritten relative to it. -/
theorem groupElements_elements_eq (ws : Workspace) (ids : List String) (gid : String)
    (hfresh : findElem ws.elements gid = none)
    (c : Elem) (cs : List Elem) (hch : ids.filterMap (findElem ws.elements) = c :: cs) :
    (groupElements ws ids gid).1.elements =
      groupRewrite (groupOf gid c cs ws.nextZIndex)
        (ws.elements ++ [groupOf gid c cs ws.nextZIndex])
        ((c :: cs).map (fun e => e.id)) := by
  have hsp : storePut ws.elements (groupOf gid c cs ws.nextZIndex) =
      ws.elements ++ [groupOf gid c cs ws.nextZIndex] := by
    unfold storePut
    show (if (findElem ws.elements gid).isSome = true then _ else _) = _
    rw [hfresh]
    rfl
  unfold groupElements groupElementsInternal
  rw [hch]
  show groupRewrite (groupOf gid c cs ws.nextZIndex)
      (storePut ws.elements (groupOf gid c cs ws.nextZIndex))
      ((c :: cs).map (fun e => e.id)) = _
  rw [hsp]

/-- Coordinate resolution at a root element. -/
theorem getAbs_root (els : List Elem) (fuel : Nat) (e : Elem) (h : e.parentId = none) :
    getAbsoluteCoords els (fuel + 1) e = some (e.x, e.y) := by
  unfold getAbsoluteCoords
  rw [h]

/-- Coordinate resolution steps through a resolvable truthy parent. -/
theorem getAbs_child (els : List Elem) (fuel : Nat) (e : Elem) (pid : String)
    (h : e.parentId = some pid) (hne : (pid != "") = true)
    (parent : Elem) (hpar : findElem els pid = some parent) :
    getAbsoluteCoords els (fuel + 1) e =
      (getAbsoluteCoords els fuel parent).map (fun p => (e.x + p.1, e.y + p.2)) := by
  conv_lhs => unfold getAbsoluteCoords
  rw [h]
  show (if (pid != "") = true then
      match findElem els pid with
      | some parent => (getAbsoluteCoords els fuel parent).map (fun p => (e.x + p.1, e.y + p.2))
      | none => some (e.x, e.y)
    else some (e.x, e.y)) = _
  rw [if_pos hne, hpar]

/-- C7 (amended): grouping computes its box from the members' STORED
coordinates and re-bases every member to the new root-level group, so
absolute positions are preserved exactly when the resolved members are root
elements; for such members the absolute position before equals the stored
one and is unchanged after grouping. (The counterexample shows it is not
preserved for a member inside a container.) -/
theorem C7_amended (ws : Workspace) (ids : List String) (gid : String)
    (hfresh : findElem ws.elements gid = none)
    (hgid : gid ≠ "")
    (hidnd : ids.Nodup)
    (hroots : ∀ e ∈ ids.filterMap (findElem ws.elements), e.parentId = none) :
    ∀ e ∈ ids.filterMap (findElem ws.elements),
      ∀ e', findElem (groupElements ws ids gid).1.elements e.id = some e' →
        getAbsoluteCoords (groupElements ws ids gid).1.elements 2 e' = some (e.x, e.y) ∧
        getAbsoluteCoords ws.elements 1 e = some (e.x, e.y) := by
  intro e he e' hfind
  cases hch : ids.filterMap (findElem ws.elements) with
  | nil => rw [hch] at he; cases he
  | cons c cs =>
      have hels := groupElements_elements_eq ws ids gid hfresh c cs hch
      have hroot := hroots e he
      have hsome : findElem ws.elements e.id = some e :=
        mem_filterMap_findElem ws.elements ids e he
      have hmemc : e ∈ c :: cs := hch ▸ he
      have heid_mem : e.id ∈ (c :: cs).map (fun x => x.id) :=
        List.mem_map_of_mem _ hmemc
      have hcids_eq : (c :: cs).map (fun x => x.id) =
          ids.filter (fun i => (findElem ws.elements i).isSome) := by
        rw [← hch]
        exact filterMap_findElem_ids ws.elements ids
      have hcidnd : ((c :: cs).map (fun x => x.id)).Nodup := by
        rw [hcids_eq]
        exact hidnd.filter _
      have hgnot : gid ∉ (c :: cs).map (fun x => x.id) := by
        rw [hcids_eq]
        intro hmem
        have hiss := (List.mem_filter.mp hmem).2
        rw [hfresh] at hiss
        exact absurd hiss (by simp)
      rw [hels] at hfind
      rw [groupRewrite_mem _ _ _ _ hcidnd heid_mem] at hfind
      rw [findElem_append_some _ _ _ _ hsome] at hfind
      simp only [Option.map_some', Option.some.injEq] at hfind
      subst hfind
      constructor
      · rw [hels]
        have hparfind : findElem (groupRewrite (groupOf gid c cs ws.nextZIndex)
            (ws.elements ++ [groupOf gid c cs ws.nextZIndex])
            ((c :: cs).map (fun x => x.id))) gid =
            some (groupOf gid c cs ws.nextZIndex) := by
          rw [groupRewrite_not_mem _ _ _ _ hgnot]
          rw [findElem_append_none _ _ _ hfresh]
          exact findElem_cons_pos _ _ _ (beq_self_eq_true gid)
        have h2 : getAbsoluteCoords (groupRewrite (groupOf gid c cs ws.nextZIndex)
            (ws.elements ++ [groupOf gid c cs ws.nextZIndex])
            ((c :: cs).map (fun x => x.id))) 2
            (groupUpd (groupOf gid c cs ws.nextZIndex) e) =
            (getAbsoluteCoords (groupRewrite (groupOf gid c cs ws.nextZIndex)
              (ws.elements ++ [groupOf gid c cs ws.nextZIndex])
              ((c :: cs).map (fun x => x.id))) 1 (groupOf gid c cs ws.nextZIndex)).map
              (fun p => ((groupUpd (groupOf gid c cs ws.nextZIndex) e).x + p.1,
                         (groupUpd (groupOf gid c cs ws.nextZIndex) e).y + p.2)) :=
          getAbs_child _ 1 _ gid rfl (bne_iff_ne.mpr hgid) _ hparfind
        have hg1 : getAbsoluteCoords (groupRewrite (groupOf gid c cs ws.nextZIndex)
            (ws.elements ++ [groupOf gid c cs ws.nextZIndex])
            ((c :: cs).map (fun x => x.id))) 1 (groupOf gid c cs ws.nextZIndex) =
            some ((groupOf gid c cs ws.nextZIndex).x, (groupOf gid c cs ws.nextZIndex).y) :=
          getAbs_root _ 0 _ rfl
        rw [h2, hg1]
        show some (e.x - (groupOf gid c cs ws.nextZIndex).x + (groupOf gid c cs ws.nextZIndex).x,
          e.y - (groupOf gid c cs ws.nextZIndex).y + (groupOf gid c cs ws.nextZIndex).y) =
          some (e.x, e.y)
        simp
      · exact getAbs_root ws.elements 0 e hroot

/-- Witness for C7 (amended) at the spec's grouping example: root shape `A`
keeps absolute position (10, 10). -/
theorem C7_amended_witness :
    getAbsoluteCoords abGrouped.elements 2 elemA2 = some (10, 10) ∧
    getAbsoluteCoords abWs.elements 1 elemA = some (10, 10) :=
  C7_amended abWs ["A", "B"] "G" (by decide) (by decide) (by decide) (by decide)
    elemA (by decide) elemA2 (by decide)

/-- Stable insertion permutes to a cons. -/
theorem insertByZ_perm (e : Elem) (l : List Elem) :
    List.Perm (insertByZ e l) (e :: l) := by
  induction l with
  | nil => exact List.Perm.refl _
  | cons x xs ih =>
      unfold insertByZ
      by_cases h : x.zIndex < e.zIndex
      · rw [if_pos h]
        exact (List.Perm.cons x ih).trans (List.Perm.swap e x xs)
      · rw [if_neg h]

/-- `sortByZ` is a permutation. -/
theorem sortByZ_perm (l : List Elem) : List.Perm (sortByZ l) l := by
  induction l with
  | nil => exact List.Perm.refl _
  | cons x xs ih => exact (insertByZ_perm x (sortByZ xs)).trans (List.Perm.cons x ih)

/-- Clamped insertion permutes to a cons. -/
theorem listInsertAt_perm (a : Elem) :
    ∀ (l : List Elem) (i : Nat), List.Perm (listInsertAt a i l) (a :: l) := by
  intro l
  induction l with
  | nil => intro i; cases i <;> exact List.Perm.refl _
  | cons x xs ih =>
      intro i
      cases i with
      | zero => exact List.Perm.refl _
      | succ j =>
          show List.Perm (x :: listInsertAt a j xs) (a :: x :: xs)
          exact (List.Perm.cons x (ih j)).trans (List.Perm.swap a x xs)

/-- Popping the found index and re-consing the element is a permutation. -/
theorem idxOf?_perm (a : Elem) :
    ∀ (l : List Elem) (i : Nat), idxOf? a l = some i →
      List.Perm (a :: listEraseAt l i) l := by
  intro l
  induction l with
  | nil => intro i h; simp [idxOf?] at h
  | cons x xs ih =>
      intro i h
      unfold idxOf? at h
      by_cases hx : (x == a) = true
      · rw [if_pos hx] at h
        have hi : i = 0 := by
          have := Option.some.injEq 0 i |>.mp h
          omega
        subst hi
        show List.Perm (a :: xs) (x :: xs)
        rw [eq_of_beq hx]
      · rw [if_neg hx] at h
        cases hj : idxOf? a xs with
        | none => rw [hj] at h; simp at h
        | some j =>
            rw [hj] at h
            simp only [Option.map_some', Option.some.injEq] at h
            subst h
            show List.Perm (a :: x :: listEraseAt xs j) (x :: xs)
            exact (List.Perm.swap x a (listEraseAt xs j)).trans (List.Perm.cons x (ih j hj))

/-- `renumberFrom` assigns exactly the consecutive range. -/
theorem renumberFrom_map_z : ∀ (l : List Elem) (b : Int),
    (renumberFrom b l).map Elem.zIndex = intRange b l.length := by
  intro l
  induction l with
  | nil => intro b; rfl
  | cons e rest ih =>
      intro b
      show (b :: (renumberFrom (b + 1) rest).map Elem.zIndex) = intRange b (rest.length + 1)
      rw [ih (b + 1)]
      rfl

/-- `renumberFrom` keeps ids (in order). -/
theorem renumberFrom_map_id : ∀ (l : List Elem) (b : Int),
    (renumberFrom b l).map Elem.id = l.map Elem.id := by
  intro l
  induction l with
  | nil => intro b; rfl
  | cons e rest ih =>
      intro b
      show (e.id :: (renumberFrom (b + 1) rest).map Elem.id) = e.id :: rest.map Elem.id
      rw [ih (b + 1)]

/-- Every renumbered element keeps the id and parent of a source element. -/
theorem renumberFrom_mem : ∀ (l : List Elem) (b : Int) (x : Elem),
    x ∈ renumberFrom b l →
      ∃ y ∈ l, x.id = y.id ∧ x.parentId = y.parentId := by
  intro l
  induction l with
  | nil => intro b x hx; cases hx
  | cons e rest ih =>
      intro b x hx
      cases List.mem_cons.mp hx with
      | inl he => exact ⟨e, List.mem_cons_self e rest, by rw [he], by rw [he]⟩
      | inr ht =>
          obtain ⟨y, hy, h1, h2⟩ := ih (b + 1) x ht
          exact ⟨y, List.mem_cons_of_mem e hy, h1, h2⟩

/-- Renumbering past an appended last element. -/
theorem renumberFrom_append_last : ∀ (l : List Elem) (b : Int) (a : Elem),
    renumberFrom b (l ++ [a]) =
      renumberFrom b l ++ [{ a with zIndex := b + (l.length : Int) }] := by
  intro l
  induction l with
  | nil =>
      intro b a
      show ({ a with zIndex := b } : Elem) :: [] = { a with zIndex := b + ((0 : Nat) : Int) } :: []
      norm_num
  | cons e rest ih =>
      intro b a
      show ({ e with zIndex := b } : Elem) :: renumberFrom (b + 1) (rest ++ [a]) = _
      rw [ih (b + 1) a]
      show ({ e with zIndex := b } : Elem) ::
          (renumberFrom (b + 1) rest ++ [{ a with zIndex := b + 1 + (rest.length : Int) }]) =
        ({ e with zIndex := b } : Elem) ::
          (renumberFrom (b + 1) rest ++ [{ a with zIndex := b + ((rest.length + 1 : Nat) : Int) }])
      have : b + 1 + (rest.length : Int) = b + ((rest.length + 1 : Nat) : Int) := by
        push_cast
        ring
      rw [this]

/-- Bounds of membership in a consecutive range. -/
theorem mem_intRange : ∀ (n : Nat) (b z : Int), z ∈ intRange b n → b ≤ z ∧ z < b + n := by
  intro n
  induction n with
  | zero => intro b z h; cases h
  | succ m ih =>
      intro b z h
      cases List.mem_cons.mp h with
      | inl he =>
          subst he
          constructor
          · exact le_refl z
          · push_cast
            omega
      | inr ht =>
          have := ih (b + 1) z ht
          constructor
          · omega
          · push_cast at this ⊢
            omega

/-- A list permuting to a cons is non-empty after renumbering. -/
theorem renumber_isEmpty (b : Int) (lst : List Elem) (a : Elem) (l : List Elem)
    (h : List.Perm lst (a :: l)) : (renumberFrom b lst).isEmpty = false := by
  cases lst with
  | nil =>
      have := h.length_eq
      simp at this
  | cons x t => rfl

/-- Decompose a list at the first element carrying a given id. -/
theorem exists_first_id : ∀ (u : List Elem) (s : String), s ∈ u.map Elem.id →
    ∃ u₁ x₀ u₂, u = u₁ ++ x₀ :: u₂ ∧ x₀.id = s ∧ (∀ y ∈ u₁, y.id ≠ s) := by
  intro u
  induction u with
  | nil => intro s h; simp at h
  | cons x xs ih =>
      intro s h
      by_cases hx : x.id = s
      · exact ⟨[], x, xs, rfl, hx, by simp⟩
      · have h2 : s ∈ xs.map Elem.id := by
          rcases List.mem_map.mp h with ⟨y, hy, hys⟩
          cases List.mem_cons.mp hy with
          | inl he => exact absurd (he ▸ hys) hx
          | inr ht => exact List.mem_map.mpr ⟨y, ht, hys⟩
        obtain ⟨u₁, x₀, u₂, heq, hid, hall⟩ := ih s h2
        refine ⟨x :: u₁, x₀, u₂, ?_, hid, ?_⟩
        · rw [List.cons_append, heq]
        · intro y hy
          cases List.mem_cons.mp hy with
          | inl he => exact he ▸ hx
          | inr ht => exact hall y ht

/-- Lookup lands on the first element with the id. -/
theorem find?_first_id : ∀ (u₁ : List Elem) (x₀ : Elem) (u₂ : List Elem) (s : String),
    x₀.id = s → (∀ y ∈ u₁, y.id ≠ s) →
    findElem (u₁ ++ x₀ :: u₂) s = some x₀ := by
  intro u₁
  induction u₁ with
  | nil =>
      intro x₀ u₂ s hx _
      exact findElem_cons_pos _ _ _ (beq_iff_eq.mpr hx)
  | cons y ys ih =>
      intro x₀ u₂ s hx hall
      rw [List.cons_append,
          findElem_cons_neg _ _ _
            (beq_eq_false_iff_ne.mpr (hall y (List.mem_cons_self y ys)))]
      exact ih x₀ u₂ s hx (fun z hz => hall z (List.mem_cons_of_mem y hz))

/-- Lookup skips over a middle element with a different id. -/
theorem findElem_middle_skip : ∀ (u₁ : List Elem) (x₀ : Elem) (u₂ : List Elem) (s : String),
    x₀.id ≠ s → findElem (u₁ ++ x₀ :: u₂) s = findElem (u₁ ++ u₂) s := by
  intro u₁
  induction u₁ with
  | nil =>
      intro x₀ u₂ s hx
      exact findElem_cons_neg _ _ _ (beq_eq_false_iff_ne.mpr hx)
  | cons y ys ih =>
      intro x₀ u₂ s hx
      by_cases hy : (y.id == s) = true
      · rw [List.cons_append, List.cons_append,
            findElem_cons_pos _ _ _ hy, findElem_cons_pos _ _ _ hy]
      · have hy2 : (y.id == s) = false := by
          cases hb : (y.id == s) with
          | true => exact absurd hb hy
          | false => rfl
        rw [List.cons_append, List.cons_append,
            findElem_cons_neg _ _ _ hy2, findElem_cons_neg _ _ _ hy2]
        exact ih x₀ u₂ s hx

/-- `applyZUpdates` only looks at the update list through per-id lookups. -/
theorem applyZUpdates_congr (u v : List Elem) : ∀ l : List Elem,
    (∀ e ∈ l, List.find? (fun w => w.id == e.id) u = List.find? (fun w => w.id == e.id) v) →
    applyZUpdates u l = applyZUpdates v l := by
  intro l
  induction l with
  | nil => intro _; rfl
  | cons e rest ih =>
      intro h
      show (match u.find? (fun w => w.id == e.id) with
            | some w => w
            | none => e) :: applyZUpdates u rest = _
      rw [h e (List.mem_cons_self e rest), ih (fun x hx => h x (List.mem_cons_of_mem e hx))]
      rfl

/-- Writing an id-permutation of updates over a store with unique ids
permutes the store to the update list. -/
theorem applyZUpdates_perm : ∀ (l u : List Elem),
    (l.map Elem.id).Nodup →
    List.Perm (u.map Elem.id) (l.map Elem.id) →
    List.Perm (applyZUpdates u l) u := by
  intro l
  induction l with
  | nil =>
      intro u _ hperm
      have h1 : u.map Elem.id = [] := hperm.eq_nil
      have h2 : u = [] := List.map_eq_nil_iff.mp h1
      rw [h2]
      exact List.Perm.refl _
  | cons e l2 ih =>
      intro u hnd hperm
      have hnd2 := List.nodup_cons.mp hnd
      have hmem : e.id ∈ u.map Elem.id := hperm.mem_iff.mpr (by simp)
      obtain ⟨u₁, x₀, u₂, rfl, hx₀, hall⟩ := exists_first_id u e.id hmem
      have hfind : findElem (u₁ ++ x₀ :: u₂) e.id = some x₀ :=
        find?_first_id u₁ x₀ u₂ e.id hx₀ hall
      show List.Perm ((match (u₁ ++ x₀ :: u₂).find? (fun w => w.id == e.id) with
          | some w => w
          | none => e) :: applyZUpdates (u₁ ++ x₀ :: u₂) l2) (u₁ ++ x₀ :: u₂)
      rw [show (u₁ ++ x₀ :: u₂).find? (fun w => w.id == e.id) = some x₀ from hfind]
      have hswitch : applyZUpdates (u₁ ++ x₀ :: u₂) l2 = applyZUpdates (u₁ ++ u₂) l2 := by
        apply applyZUpdates_congr
        intro e2 he2
        have hne : x₀.id ≠ e2.id := by
          rw [hx₀]
          intro hcl
          exact hnd2.1 (hcl ▸ List.mem_map_of_mem Elem.id he2)
        exact findElem_middle_skip u₁ x₀ u₂ e2.id hne
      rw [hswitch]
      have hnotin : e.id ∉ u₁.map Elem.id := by
        intro hm
        rcases List.mem_map.mp hm with ⟨y, hy, hyid⟩
        exact hall y hy hyid
      have hperm2 : List.Perm ((u₁ ++ u₂).map Elem.id) (l2.map Elem.id) := by
        have herase := hperm.erase e.id
        rw [show (e :: l2).map Elem.id = e.id :: l2.map Elem.id from rfl,
            List.erase_cons_head] at herase
        rw [show (u₁ ++ x₀ :: u₂).map Elem.id =
              u₁.map Elem.id ++ x₀.id :: u₂.map Elem.id by simp,
            List.erase_append_right _ hnotin, hx₀, List.erase_cons_head] at herase
        rw [List.map_append]
        exact herase
      exact (List.Perm.cons x₀ (ih (u₁ ++ u₂) hnd2.2 hperm2)).trans List.perm_middle.symm

/-- `applyZUpdates` keeps the store's ids in place. -/
theorem applyZUpdates_map_id (u : List Elem) : ∀ l : List Elem,
    (applyZUpdates u l).map Elem.id = l.map Elem.id := by
  intro l
  induction l with
  | nil => rfl
  | cons e rest ih =>
      have hstep : applyZUpdates u (e :: rest) =
          (match u.find? (fun w => w.id == e.id) with
           | some w => w
           | none => e) :: applyZUpdates u rest := rfl
      cases hf : u.find? (fun w => w.id == e.id) with
      | none =>
          rw [hstep, hf]
          show e.id :: (applyZUpdates u rest).map Elem.id = e.id :: rest.map Elem.id
          rw [ih]
      | some w =>
          have hwid : w.id = e.id :=
            eq_of_beq (@List.find?_some Elem (fun v => v.id == e.id) w u hf)
          rw [hstep, hf]
          show w.id :: (applyZUpdates u rest).map Elem.id = e.id :: rest.map Elem.id
          rw [ih, hwid]

/-- With unique ids, lookup of a member's id returns that member. -/
theorem findElem_unique : ∀ (l : List Elem) (x : Elem),
    (l.map Elem.id).Nodup → x ∈ l → findElem l x.id = some x := by
  intro l
  induction l with
  | nil => intro x _ hx; cases hx
  | cons y ys ih =>
      intro x hnd hx
      have hnd2 := List.nodup_cons.mp hnd
      cases List.mem_cons.mp hx with
      | inl he =>
          subst he
          exact findElem_cons_pos _ _ _ (beq_self_eq_true x.id)
      | inr ht =>
          have hy : y.id ≠ x.id := by
            intro hc
            exact hnd2.1 (hc ▸ List.mem_map_of_mem Elem.id ht)
          rw [findElem_cons_neg _ _ _ (beq_eq_false_iff_ne.mpr hy)]
          exact ih x hnd2.2 ht

/-- With unique ids, equal ids mean equal members. -/
theorem nodup_id_inj : ∀ (l : List Elem), (l.map Elem.id).Nodup →
    ∀ a ∈ l, ∀ b ∈ l, a.id = b.id → a = b := by
  intro l
  induction l with
  | nil => intro _ a ha; cases ha
  | cons y ys ih =>
      intro hnd a ha b hb hab
      have hnd2 := List.nodup_cons.mp hnd
      cases List.mem_cons.mp ha with
      | inl hea =>
          cases List.mem_cons.mp hb with
          | inl heb => rw [hea, heb]
          | inr htb =>
              exact absurd ((hea ▸ hab) ▸ List.mem_map_of_mem Elem.id htb) hnd2.1
      | inr hta =>
          cases List.mem_cons.mp hb with
          | inl heb =>
              exact absurd ((heb ▸ hab.symm) ▸ List.mem_map_of_mem Elem.id hta) hnd2.1
          | inr htb => exact ih hnd2.2 a hta b htb hab

/-- After a successful global reorder, the z-indexes over the whole store
are exactly a permutation of `0..n-1`. -/
theorem global_result_perm (ws : Workspace) (target : Elem) (lst : List Elem) (ci : Nat)
    (hnd : (ws.elements.map Elem.id).Nodup)
    (hidx : idxOf? target (sortByZ ws.elements) = some ci)
    (hlst : List.Perm lst (target :: listEraseAt (sortByZ ws.elements) ci)) :
    List.Perm ((applyZUpdates (renumberFrom 0 lst) ws.elements).map Elem.zIndex)
      (intRange 0 ws.elements.length) := by
  have hlst2 : List.Perm lst ws.elements :=
    hlst.trans ((idxOf?_perm target (sortByZ ws.elements) ci hidx).trans (sortByZ_perm _))
  have hids : List.Perm ((renumberFrom 0 lst).map Elem.id) (ws.elements.map Elem.id) := by
    rw [renumberFrom_map_id]
    exact hlst2.map Elem.id
  have hz := (applyZUpdates_perm ws.elements (renumberFrom 0 lst) hnd hids).map Elem.zIndex
  rw [renumberFrom_map_z, hlst2.length_eq] at hz
  exact hz

/-- Filtering a store update by scope: when every update belongs to the
scope and off-scope store entries have no update, filtering commutes with
the write-back. -/
theorem filter_applyZUpdates (u : List Elem) (pid : Option String) : ∀ l : List Elem,
    (∀ x ∈ u, x.parentId = pid) →
    (∀ e ∈ l, e.parentId ≠ pid → u.find? (fun w => w.id == e.id) = none) →
    (applyZUpdates u l).filter (fun e => e.parentId == pid) =
      applyZUpdates u (l.filter (fun e => e.parentId == pid)) := by
  intro l
  induction l with
  | nil => intro _ _; rfl
  | cons e rest ih =>
      intro hu hl
      have hu2 := hu
      have hl2 : ∀ x ∈ rest, x.parentId ≠ pid → u.find? (fun w => w.id == x.id) = none :=
        fun x hx => hl x (List.mem_cons_of_mem e hx)
      have hstep : applyZUpdates u (e :: rest) =
          (match u.find? (fun w => w.id == e.id) with
           | some w => w
           | none => e) :: applyZUpdates u rest := rfl
      by_cases hp : e.parentId = pid
      · have hpb : (e.parentId == pid) = true := beq_iff_eq.mpr hp
        cases hf : u.find? (fun w => w.id == e.id) with
        | none =>
            rw [hstep, hf]
            show (e :: applyZUpdates u rest).filter (fun x => x.parentId == pid) =
              applyZUpdates u ((e :: rest).filter (fun x => x.parentId == pid))
            rw [List.filter_cons, List.filter_cons, if_pos hpb, if_pos hpb]
            show e :: (applyZUpdates u rest).filter (fun x => x.parentId == pid) =
              (match u.find? (fun w => w.id == e.id) with
               | some w => w
               | none => e) :: applyZUpdates u (rest.filter (fun x => x.parentId == pid))
            rw [hf, ih hu2 hl2]
        | some w =>
            have hwp : (w.parentId == pid) = true := by
              apply beq_iff_eq.mpr
              exact hu w (List.mem_of_find?_eq_some hf)
            rw [hstep, hf]
            show (w :: applyZUpdates u rest).filter (fun x => x.parentId == pid) =
              applyZUpdates u ((e :: rest).filter (fun x => x.parentId == pid))
            rw [List.filter_cons, List.filter_cons, if_pos hwp, if_pos hpb]
            show w :: (applyZUpdates u rest).filter (fun x => x.parentId == pid) =
              (match u.find? (fun w => w.id == e.id) with
               | some w => w
               | none => e) :: applyZUpdates u (rest.filter (fun x => x.parentId == pid))
            rw [hf, ih hu2 hl2]
      · have hpb : (e.parentId == pid) = false := by
          cases hb : (e.parentId == pid) with
          | true => exact absurd (eq_of_beq hb) hp
          | false => rfl
        have hf : u.find? (fun w => w.id == e.id) = none := hl e (List.mem_cons_self e rest) hp
        rw [hstep, hf]
        show (e :: applyZUpdates u rest).filter (fun x => x.parentId == pid) =
          applyZUpdates u ((e :: rest).filter (fun x => x.parentId == pid))
        rw [List.filter_cons, List.filter_cons, if_neg (by rw [hpb]; simp),
            if_neg (by rw [hpb]; simp)]
        exact ih hu2 hl2

/-- After a successful sibling reorder, the z-indexes over the sibling scope
are exactly the consecutive range starting at the base offset. -/
theorem sibling_result_perm (ws : Workspace) (target : Elem) (lst : List Elem)
    (ci : Nat) (base : Int)
    (hnd : (ws.elements.map Elem.id).Nodup)
    (hidx : idxOf? target
      (sortByZ (ws.elements.filter (fun e => e.parentId == target.parentId))) = some ci)
    (hlst : List.Perm lst (target ::
      listEraseAt (sortByZ (ws.elements.filter (fun e => e.parentId == target.parentId))) ci)) :
    List.Perm (((applyZUpdates (renumberFrom base lst) ws.elements).filter
        (fun e => e.parentId == target.parentId)).map Elem.zIndex)
      (intRange base
        ((ws.elements.filter (fun e => e.parentId == target.parentId)).length)) := by
  have hlst2 : List.Perm lst (ws.elements.filter (fun e => e.parentId == target.parentId)) :=
    hlst.trans ((idxOf?_perm _ _ _ hidx).trans (sortByZ_perm _))
  have hmemlst : ∀ y ∈ lst, y.parentId = target.parentId := by
    intro y hy
    have hmemf : y ∈ ws.elements.filter (fun v => v.parentId == target.parentId) :=
      hlst2.mem_iff.mp hy
    have hb : (y.parentId == target.parentId) = true :=
      @List.of_mem_filter Elem (fun v => v.parentId == target.parentId) y ws.elements hmemf
    exact eq_of_beq hb
  have hu : ∀ x ∈ renumberFrom base lst, x.parentId = target.parentId := by
    intro x hx
    obtain ⟨y, hy, _, hpar⟩ := renumberFrom_mem lst base x hx
    rw [hpar]
    exact hmemlst y hy
  have hl : ∀ e ∈ ws.elements, e.parentId ≠ target.parentId →
      (renumberFrom base lst).find? (fun w => w.id == e.id) = none := by
    intro e he hep
    apply List.find?_eq_none.mpr
    intro x hx hbeq
    have hxide : x.id = e.id := eq_of_beq hbeq
    obtain ⟨y, hy, hidxy, _⟩ := renumberFrom_mem lst base x hx
    have hmemf : y ∈ ws.elements.filter (fun v => v.parentId == target.parentId) :=
      hlst2.mem_iff.mp hy
    have hymem : y ∈ ws.elements := List.mem_of_mem_filter hmemf
    have hb : (y.parentId == target.parentId) = true :=
      @List.of_mem_filter Elem (fun v => v.parentId == target.parentId) y ws.elements hmemf
    have hyp : y.parentId = target.parentId := eq_of_beq hb
    have hye : y = e :=
      nodup_id_inj ws.elements hnd y hymem e he (hidxy.symm.trans hxide)
    exact hep (hye ▸ hyp)
  rw [filter_applyZUpdates _ _ _ hu hl]
  have hndf : ((ws.elements.filter
      (fun e => e.parentId == target.parentId)).map Elem.id).Nodup :=
    List.Nodup.sublist ((List.filter_sublist ws.elements).map Elem.id) hnd
  have hids : List.Perm ((renumberFrom base lst).map Elem.id)
      ((ws.elements.filter (fun e => e.parentId == target.parentId)).map Elem.id) := by
    rw [renumberFrom_map_id]
    exact hlst2.map Elem.id
  have hz := (applyZUpdates_perm _ _ hndf hids).map Elem.zIndex
  rw [renumberFrom_map_z, hlst2.length_eq] at hz
  exact hz

/-- The history commit after a reorder does not change the element store. -/
theorem ite_commit_elements (r : Workspace × List Elem) :
    (if r.2.isEmpty = true then r else (commitHistory r.1, r.2)).1.elements =
      r.1.elements := by
  by_cases h : r.2.isEmpty = true
  · rw [if_pos h]
  · rw [if_neg h]
    rfl

/-- The history commit after a reorder does not change the affected list. -/
theorem ite_commit_snd (r : Workspace × List Elem) :
    (if r.2.isEmpty = true then r else (commitHistory r.1, r.2)).2 = r.2 := by
  by_cases h : r.2.isEmpty = true
  · rw [if_pos h]
  · rw [if_neg h]

/-- `reorder_element` on a root target routes to the global scope. -/
theorem reorderElement_global (ws : Workspace) (eid command : String) (target : Elem)
    (ht : findElem ws.elements eid = some target)
    (htr : truthy target.parentId = false) :
    reorderElement ws eid command =
      (if (reorderGlobal ws target command).2.isEmpty = true
       then reorderGlobal ws target command
       else (commitHistory (reorderGlobal ws target command).1,
             (reorderGlobal ws target command).2)) := by
  simp only [reorderElement]
  rw [ht]
  simp [htr]

/-- `reorder_element` on a parented target routes to the sibling scope. -/
theorem reorderElement_siblings (ws : Workspace) (eid command : String) (target : Elem)
    (ht : findElem ws.elements eid = some target)
    (htr : truthy target.parentId = true) :
    reorderElement ws eid command =
      (if (reorderSiblings ws target command).2.isEmpty = true
       then reorderSiblings ws target command
       else (commitHistory (reorderSiblings ws target command).1,
             (reorderSiblings ws target command).2)) := by
  simp only [reorderElement]
  rw [ht]
  simp [htr]

/-- A successful global reorder renumbers the ENTIRE store to `0..n-1`. -/
theorem reorderGlobal_elements (ws : Workspace) (target : Elem) (command : String)
    (hnd : (ws.elements.map Elem.id).Nodup)
    (hne : (reorderGlobal ws target command).2 ≠ []) :
    List.Perm ((reorderGlobal ws target command).1.elements.map Elem.zIndex)
      (intRange 0 ws.elements.length) := by
  simp only [reorderGlobal] at hne ⊢
  cases hidx : idxOf? target (sortByZ ws.elements) with
  | none =>
      rw [hidx] at hne
      exact absurd rfl hne
  | some ci =>
      rw [hidx] at hne
      simp only [] at hne ⊢
      by_cases hc1 : (command == "BRING_FORWARD") = true
      · rw [if_pos hc1]
        exact global_result_perm ws target _ ci hnd hidx (listInsertAt_perm target _ _)
      · rw [if_neg hc1] at hne ⊢
        by_cases hc2 : (command == "SEND_BACKWARD") = true
        · rw [if_pos hc2]
          exact global_result_perm ws target _ ci hnd hidx (listInsertAt_perm target _ _)
        · rw [if_neg hc2] at hne ⊢
          by_cases hc3 : (command == "BRING_TO_FRONT") = true
          · rw [if_pos hc3]
            exact global_result_perm ws target _ ci hnd hidx
              (List.perm_append_singleton target _)
          · rw [if_neg hc3] at hne ⊢
            by_cases hc4 : (command == "SEND_TO_BACK") = true
            · rw [if_pos hc4]
              exact global_result_perm ws target _ ci hnd hidx (List.Perm.refl _)
            · rw [if_neg hc4] at hne
              exact absurd rfl hne

/-- A successful sibling reorder renumbers the sibling scope to the
consecutive range starting at `parent.zIndex + 1`. -/
theorem reorderSiblings_elements (ws : Workspace) (target : Elem) (command : String)
    (hnd : (ws.elements.map Elem.id).Nodup)
    (hne : (reorderSiblings ws target command).2 ≠ []) :
    List.Perm (((reorderSiblings ws target command).1.elements.filter
        (fun e => e.parentId == target.parentId)).map Elem.zIndex)
      (intRange (siblingBase ws target)
        ((ws.elements.filter (fun e => e.parentId == target.parentId)).length)) := by
  simp only [reorderSiblings] at hne ⊢
  cases hidx : idxOf? target
      (sortByZ (ws.elements.filter (fun e => e.parentId == target.parentId))) with
  | none =>
      rw [hidx] at hne
      exact absurd rfl hne
  | some ci =>
      rw [hidx] at hne
      simp only [] at hne ⊢
      by_cases hc1 : (command == "BRING_FORWARD" || command == "BRING_TO_FRONT") = true
      · rw [if_pos hc1]
        exact sibling_result_perm ws target _ ci _ hnd hidx (listInsertAt_perm target _ _)
      · rw [if_neg hc1] at hne ⊢
        by_cases hc2 : (command == "SEND_BACKWARD" || command == "SEND_TO_BACK") = true
        · rw [if_pos hc2]
          exact sibling_result_perm ws target _ ci _ hnd hidx (listInsertAt_perm target _ _)
        · rw [if_neg hc2] at hne
          exact absurd rfl hne

/-- C1 (amended): a successful `reorder_element` call does keep z-indexes
dense, but not per scope as the claim states: a global reorder renumbers the
ENTIRE element collection (children included) to a permutation of `0..n-1`
over the whole document, and a sibling reorder renumbers exactly the sibling
set to the consecutive range starting at `parent.zIndex + 1` (or 0 for a
dangling parent id) — so neither scope is independently zero-based. -/
theorem C1_amended (ws : Workspace) (eid command : String) (target : Elem)
    (hnd : (ws.elements.map Elem.id).Nodup)
    (ht : findElem ws.elements eid = some target) :
    (truthy target.parentId = false →
      (reorderElement ws eid command).2 ≠ [] →
      List.Perm ((reorderElement ws eid command).1.elements.map Elem.zIndex)
        (intRange 0 ws.elements.length)) ∧
    (truthy target.parentId = true →
      (reorderElement ws eid command).2 ≠ [] →
      List.Perm (((reorderElement ws eid command).1.elements.filter
          (fun e => e.parentId == target.parentId)).map Elem.zIndex)
        (intRange (siblingBase ws target)
          ((ws.elements.filter (fun e => e.parentId == target.parentId)).length))) := by
  constructor
  · intro htr hne
    rw [reorderElement_global ws eid command target ht htr] at hne ⊢
    rw [ite_commit_elements]
    rw [ite_commit_snd] at hne
    exact reorderGlobal_elements ws target command hnd hne
  · intro htr hne
    rw [reorderElement_siblings ws eid command target ht htr] at hne ⊢
    rw [ite_commit_elements]
    rw [ite_commit_snd] at hne
    exact reorderSiblings_elements ws target command hnd hne

/-- Witness for C1 (amended): bringing the root shape to front in the
five-element document renumbers the whole document `0..4`. -/
theorem C1_amended_witness :
    List.Perm ((reorderElement zws "s1" "BRING_TO_FRONT").1.elements.map Elem.zIndex)
      (intRange 0 zws.elements.length) :=
  (C1_amended zws "s1" "BRING_TO_FRONT" zwsS1 (by decide) (by decide)).1
    (by decide) (by decide)

/-- A member is found by the index search. -/
theorem idxOf?_mem (a : Elem) : ∀ l : List Elem, a ∈ l → ∃ i, idxOf? a l = some i := by
  intro l
  induction l with
  | nil => intro h; cases h
  | cons x xs ih =>
      intro h
      by_cases hx : (x == a) = true
      · exact ⟨0, by unfold idxOf?; rw [if_pos hx]⟩
      · have hmem : a ∈ xs := by
          cases List.mem_cons.mp h with
          | inl he => exact absurd (beq_iff_eq.mpr he.symm) hx
          | inr ht => exact ht
        obtain ⟨j, hj⟩ := ih hmem
        exact ⟨j + 1, by unfold idxOf?; rw [if_neg hx, hj]; rfl⟩

/-- The store after a global BRING_TO_FRONT: the popped list with the target
appended, renumbered from 0 and written back. -/
theorem reorderGlobal_front_elements (ws : Workspace) (target : Elem) (ci : Nat)
    (hidx : idxOf? target (sortByZ ws.elements) = some ci) :
    (reorderGlobal ws target "BRING_TO_FRONT").1.elements =
      applyZUpdates
        (renumberFrom 0 (listEraseAt (sortByZ ws.elements) ci ++ [target]))
        ws.elements := by
  simp only [reorderGlobal]
  rw [hidx]
  rfl

/-- The store after a global SEND_TO_BACK: the target re-consed onto the
popped list, renumbered from 0 and written back. -/
theorem reorderGlobal_back_elements (ws : Workspace) (target : Elem) (ci : Nat)
    (hidx : idxOf? target (sortByZ ws.elements) = some ci) :
    (reorderGlobal ws target "SEND_TO_BACK").1.elements =
      applyZUpdates
        (renumberFrom 0 (target :: listEraseAt (sortByZ ws.elements) ci))
        ws.elements := by
  simp only [reorderGlobal]
  rw [hidx]
  rfl

/-- C6 (amended): only in the GLOBAL scope do BRING_TO_FRONT/SEND_TO_BACK
reinsert the target at an end (it gets the maximal/minimal z-index over the
whole store); in the sibling scope the source lumps BRING_TO_FRONT into the
clamped single-step BRING_FORWARD branch and SEND_TO_BACK into SEND_BACKWARD,
so both behave as one-step moves there. -/
theorem C6_amended (ws : Workspace) (eid : String) (target : Elem)
    (hnd : (ws.elements.map Elem.id).Nodup)
    (ht : findElem ws.elements eid = some target)
    (hroot : truthy target.parentId = false) :
    (∀ t', findElem (reorderElement ws eid "BRING_TO_FRONT").1.elements eid = some t' →
      ∀ e ∈ (reorderElement ws eid "BRING_TO_FRONT").1.elements, e.zIndex ≤ t'.zIndex) ∧
    (∀ t', findElem (reorderElement ws eid "SEND_TO_BACK").1.elements eid = some t' →
      ∀ e ∈ (reorderElement ws eid "SEND_TO_BACK").1.elements, t'.zIndex ≤ e.zIndex) ∧
    (∀ t : Elem, reorderSiblings ws t "BRING_TO_FRONT" = reorderSiblings ws t "BRING_FORWARD") ∧
    (∀ t : Elem, reorderSiblings ws t "SEND_TO_BACK" = reorderSiblings ws t "SEND_BACKWARD") := by
  have htid : target.id = eid := findElem_some_id ws.elements eid target ht
  have htmem : target ∈ ws.elements := List.mem_of_find?_eq_some ht
  have htsort : target ∈ sortByZ ws.elements := ((sortByZ_perm ws.elements).mem_iff).mpr htmem
  obtain ⟨ci, hidx⟩ := idxOf?_mem target (sortByZ ws.elements) htsort
  refine ⟨?_, ?_, fun t => rfl, fun t => rfl⟩
  · intro t' hfind e hemem
    rw [reorderElement_global ws eid _ target ht hroot, ite_commit_elements,
        reorderGlobal_front_elements ws target ci hidx] at hfind hemem
    have hidsperm : List.Perm
        ((renumberFrom 0 (listEraseAt (sortByZ ws.elements) ci ++ [target])).map Elem.id)
        (ws.elements.map Elem.id) := by
      rw [renumberFrom_map_id]
      exact ((List.perm_append_singleton target _).trans
        ((idxOf?_perm target _ ci hidx).trans (sortByZ_perm _))).map Elem.id
    have hstoreperm := applyZUpdates_perm ws.elements _ hnd hidsperm
    have hnd2 : ((applyZUpdates
        (renumberFrom 0 (listEraseAt (sortByZ ws.elements) ci ++ [target]))
        ws.elements).map Elem.id).Nodup := by
      rw [applyZUpdates_map_id]
      exact hnd
    have hRlast : renumberFrom 0 (listEraseAt (sortByZ ws.elements) ci ++ [target]) =
        renumberFrom 0 (listEraseAt (sortByZ ws.elements) ci) ++
          [{ target with
             zIndex := 0 + ((listEraseAt (sortByZ ws.elements) ci).length : Int) }] :=
      renumberFrom_append_last _ 0 target
    have hxmem : ({ target with
        zIndex := 0 + ((listEraseAt (sortByZ ws.elements) ci).length : Int) } : Elem) ∈
        renumberFrom 0 (listEraseAt (sortByZ ws.elements) ci ++ [target]) := by
      rw [hRlast]
      simp
    have hxels := hstoreperm.mem_iff.mpr hxmem
    have hfind2 := findElem_unique _ _ hnd2 hxels
    rw [show ({ target with
        zIndex := 0 + ((listEraseAt (sortByZ ws.elements) ci).length : Int) } : Elem).id = eid
      from htid] at hfind2
    rw [hfind2] at hfind
    have ht2 := Option.some.inj hfind
    subst ht2
    have hemem2 := hstoreperm.mem_iff.mp hemem
    have hzmem := List.mem_map_of_mem Elem.zIndex hemem2
    rw [renumberFrom_map_z] at hzmem
    have hb := mem_intRange _ 0 e.zIndex hzmem
    show e.zIndex ≤ 0 + ((listEraseAt (sortByZ ws.elements) ci).length : Int)
    have hlen : (listEraseAt (sortByZ ws.elements) ci ++ [target]).length =
        (listEraseAt (sortByZ ws.elements) ci).length + 1 := by simp
    rw [hlen] at hb
    push_cast at hb ⊢
    omega
  · intro t' hfind e hemem
    rw [reorderElement_global ws eid _ target ht hroot, ite_commit_elements,
        reorderGlobal_back_elements ws target ci hidx] at hfind hemem
    have hidsperm : List.Perm
        ((renumberFrom 0 (target :: listEraseAt (sortByZ ws.elements) ci)).map Elem.id)
        (ws.elements.map Elem.id) := by
      rw [renumberFrom_map_id]
      exact ((idxOf?_perm target _ ci hidx).trans (sortByZ_perm _)).map Elem.id
    have hstoreperm := applyZUpdates_perm ws.elements _ hnd hidsperm
    have hnd2 : ((applyZUpdates
        (renumberFrom 0 (target :: listEraseAt (sortByZ ws.elements) ci))
        ws.elements).map Elem.id).Nodup := by
      rw [applyZUpdates_map_id]
      exact hnd
    have hxmem : ({ target with zIndex := 0 } : Elem) ∈
        renumberFrom 0 (target :: listEraseAt (sortByZ ws.elements) ci) := by
      show ({ target with zIndex := 0 } : Elem) ∈
        ({ target with zIndex := 0 } : Elem) ::
          renumberFrom (0 + 1) (listEraseAt (sortByZ ws.elements) ci)
      exact List.mem_cons_self _ _
    have hxels := hstoreperm.mem_iff.mpr hxmem
    have hfind2 := findElem_unique _ _ hnd2 hxels
    rw [show ({ target with zIndex := 0 } : Elem).id = eid from htid] at hfind2
    rw [hfind2] at hfind
    have ht2 := Option.some.inj hfind
    subst ht2
    have hemem2 := hstoreperm.mem_iff.mp hemem
    have hzmem := List.mem_map_of_mem Elem.zIndex hemem2
    rw [renumberFrom_map_z] at hzmem
    have hb := mem_intRange _ 0 e.zIndex hzmem
    show (0 : Int) ≤ e.zIndex
    exact hb.1

/-- Witness for C6 (amended): with the root shape brought to front it is
above the frame; sent to back it is below it. -/
theorem C6_amended_witness :
    zwsFrontP1.zIndex ≤ zwsFrontS1.zIndex ∧ zwsBackS1.zIndex ≤ zwsBackP1.zIndex := by
  have h := C6_amended zws "s1" zwsS1 (by decide) (by decide) (by decide)
  exact ⟨h.1 zwsFrontS1 (by decide) zwsFrontP1 (by decide),
         h.2.1 zwsBackS1 (by decide) zwsBackP1 (by decide)⟩

end Parsec
